import Mathlib

/-!
Verification of the site-crawler core of `crawl_hardrace.py`.

The crawler's pure helpers (URL normalization, scope resolution, content
classification, link extraction, canonical resolution) and its main loop are
shallowly embedded over `List Char` strings.  The embedding follows the
behaviour of CPython 3.11's `urllib.parse` (`urlsplit`, `urlunsplit`,
`urlparse`, `urljoin`), which the source uses, restricted to strings of
ASCII characters: the NFKC check of `_checknetloc` never fires for ASCII
authorities and is modelled as requiring an ASCII authority; Unicode
whitespace beyond the ASCII range is not modelled.  Python exceptions are
modelled with `Except Unit`; HTTP traffic and HTML parsing
(`requests`/`BeautifulSoup`) are oracles supplied by a `World` structure.
-/

deriving instance DecidableEq for Except

/-- Python strings, modelled as lists of characters. -/
abbrev Str := List Char

/-- The apostrophe character (`'`). -/
def apos : Char := Char.ofNat 39

/-- Tab, carriage return and line feed: the bytes `urlsplit` removes
(`_UNSAFE_URL_BYTES_TO_REMOVE`). -/
def cleanChar (c : Char) : Prop := c ≠ Char.ofNat 9 ∧ c ≠ Char.ofNat 13 ∧ c ≠ Char.ofNat 10

instance : DecidablePred cleanChar := fun _ => by unfold cleanChar; infer_instance

/-- `url.replace(b, "")` for each unsafe byte, from `urlsplit`. -/
def removeUnsafe (s : Str) : Str := s.filter (fun c => decide (cleanChar c))

/-- ASCII lowercasing, the effect of Python's `str.lower()` on ASCII text. -/
def lowerChar (c : Char) : Char :=
  if 65 ≤ c.toNat ∧ c.toNat ≤ 90 then Char.ofNat (c.toNat + 32) else c

/-- Characters at which `_splitnetloc` stops: `/?#`. -/
def isNetlocDelim (c : Char) : Bool := c = '/' || c = '?' || c = '#'

/-- Python's `c.isascii() and c.isalpha()`: an ASCII letter. -/
def isAsciiAlpha (c : Char) : Bool :=
  decide ((65 ≤ c.toNat ∧ c.toNat ≤ 90) ∨ (97 ≤ c.toNat ∧ c.toNat ≤ 122))

/-- Membership in Python's `scheme_chars` (ASCII letters, digits, `+-.`). -/
def isSchemeChar (c : Char) : Bool :=
  isAsciiAlpha c || decide (48 ≤ c.toNat ∧ c.toNat ≤ 57) || c = '+' || c = '-' || c = '.'

/-- Result of `urllib.parse.urlsplit`. -/
structure SplitResult where
  scheme : Str
  netloc : Str
  path : Str
  query : Str
  fragment : Str
deriving Repr, DecidableEq

/-- The scheme-detection step of `urlsplit`: if the text before the first `:`
is a nonempty run of scheme characters starting with an ASCII letter, it is
the (lowercased) scheme and is split off. -/
def schemeSplit (url : Str) : Str × Str :=
  let pre := url.takeWhile (fun c => c ≠ ':')
  if pre.length < url.length ∧ pre ≠ [] ∧ isAsciiAlpha (url.headD ' ') = true ∧ pre.all isSchemeChar
  then (pre.map lowerChar, url.drop (pre.length + 1))
  else ([], url)

/-- The netloc-detection step of `urlsplit`: if the remainder starts with
`//`, the authority runs up to the next `/`, `?` or `#`. -/
def netlocSplit (url : Str) : Str × Str :=
  if url.take 2 = ['/', '/'] then
    ((url.drop 2).takeWhile (fun c => ¬ isNetlocDelim c),
     (url.drop 2).dropWhile (fun c => ¬ isNetlocDelim c))
  else ([], url)

/-- Splitting off the part after the first occurrence of `c` (Python's
`url.split(c, 1)`; when `c` does not occur the second component is empty). -/
def splitAtFirst (c : Char) (url : Str) : Str × Str :=
  (url.takeWhile (fun x => x ≠ c), (url.dropWhile (fun x => x ≠ c)).drop 1)

/-- `urllib.parse.urlsplit` (CPython 3.11).  Errors model the `ValueError`s
it can raise: an unbalanced `[`/`]` in the authority, and (as the ASCII
restriction of this embedding) `_checknetloc` on a non-ASCII authority. -/
def urlsplit (url0 : Str) (d0 : Str) : Except Unit SplitResult :=
  let url1 := removeUnsafe url0
  let d := removeUnsafe d0
  let sp := schemeSplit url1
  let scheme := if sp.1 = [] then d else sp.1
  let nl := netlocSplit sp.2
  if ('[' ∈ nl.1 ∧ ']' ∉ nl.1) ∨ (']' ∈ nl.1 ∧ '[' ∉ nl.1) then Except.error ()
  else if ¬ nl.1.all (fun c => c.toNat < 128) then Except.error ()
  else
    let fr := splitAtFirst '#' nl.2
    let qu := splitAtFirst '?' fr.1
    Except.ok ⟨scheme, nl.1, qu.1, qu.2, fr.2⟩

/-- Python's `uses_netloc` scheme list. -/
def usesNetlocList : List Str :=
  (["", "ftp", "http", "gopher", "nntp", "telnet", "imap", "wais", "file",
    "mms", "https", "shttp", "snews", "prospero", "rtsp", "rtspu", "rsync",
    "svn", "svn+ssh", "sftp", "nfs", "git", "git+ssh", "ws", "wss"]).map String.data

/-- Python's `uses_relative` scheme list. -/
def usesRelativeList : List Str :=
  (["", "ftp", "http", "gopher", "nntp", "imap", "wais", "file", "https",
    "shttp", "mms", "prospero", "rtsp", "rtspu", "sftp", "svn", "svn+ssh",
    "ws", "wss"]).map String.data

/-- Python's `uses_params` scheme list. -/
def usesParamsList : List Str :=
  (["", "ftp", "hdl", "prospero", "http", "imap", "https", "shttp", "rtsp",
    "rtspu", "sip", "sips", "mms", "sftp", "tel"]).map String.data

/-- `urllib.parse.urlunsplit` (CPython 3.11). -/
def urlunsplit (c : SplitResult) : Str :=
  let u0 := c.path
  let u1 :=
    if c.netloc ≠ [] ∨ (c.scheme ≠ [] ∧ c.scheme ∈ usesNetlocList ∧ u0.take 2 ≠ ['/', '/'])
    then ['/', '/'] ++ c.netloc ++ (if u0 ≠ [] ∧ u0.take 1 ≠ ['/'] then '/' :: u0 else u0)
    else u0
  let u2 := if c.scheme ≠ [] then c.scheme ++ ':' :: u1 else u1
  let u3 := if c.query ≠ [] then u2 ++ '?' :: c.query else u2
  if c.fragment ≠ [] then u3 ++ '#' :: c.fragment else u3

/-- `normalize_url` from `crawl_hardrace.py` lines 26-36: default the scheme
to `https`, lowercase the host, default an empty path to `/`, strip one
trailing slash from a non-root path, drop query and fragment. -/
def normalize_url (url : Str) : Except Unit Str :=
  match urlsplit url [] with
  | Except.error e => Except.error e
  | Except.ok u =>
    let scheme := if u.scheme = [] then ("https").data else u.scheme
    let netloc := u.netloc.map lowerChar
    let path0 := if u.path = [] then ['/'] else u.path
    let path := if path0.length > 1 ∧ path0.getLast? = some '/' then path0.dropLast else path0
    Except.ok (urlunsplit ⟨scheme, netloc, path, [], []⟩)

/-- Result of `urllib.parse.urlparse`. -/
structure ParseResult where
  scheme : Str
  netloc : Str
  path : Str
  params : Str
  query : Str
  fragment : Str
deriving Repr, DecidableEq

/-- Python's `_splitparams`: split `;params` off the path, searching only the
last path segment when the path contains a `/`. -/
def splitparams (url : Str) : Str × Str :=
  if '/' ∈ url then
    let k := url.length - 1 - (url.reverse.takeWhile (fun c => c ≠ '/')).length
    let tailPart := url.drop k
    if ';' ∈ tailPart then
      (url.take k ++ tailPart.takeWhile (fun c => c ≠ ';'),
       (tailPart.dropWhile (fun c => c ≠ ';')).drop 1)
    else (url, [])
  else splitAtFirst ';' url

/-- `urllib.parse.urlparse` (CPython 3.11). -/
def urlparse (url : Str) (d0 : Str) : Except Unit ParseResult :=
  match urlsplit url d0 with
  | Except.error e => Except.error e
  | Except.ok s =>
    if s.scheme ∈ usesParamsList ∧ ';' ∈ s.path then
      let pp := splitparams s.path
      Except.ok ⟨s.scheme, s.netloc, pp.1, pp.2, s.query, s.fragment⟩
    else Except.ok ⟨s.scheme, s.netloc, s.path, [], s.query, s.fragment⟩

/-- `urllib.parse.urlunparse`. -/
def urlunparse (c : ParseResult) : Str :=
  let url := if c.params ≠ [] then c.path ++ ';' :: c.params else c.path
  urlunsplit ⟨c.scheme, c.netloc, url, c.query, c.fragment⟩

/-- Python's `str.split(sep)` for a single-character separator. -/
def splitOnChar (sep : Char) : Str → List Str
  | [] => [[]]
  | c :: rest =>
    let r := splitOnChar sep rest
    if c = sep then [] :: r
    else match r with
      | [] => [[c]]
      | h :: t => (c :: h) :: t

/-- `sep.join(l)` for a single-character separator. -/
def joinChar (sep : Char) : List Str → Str
  | [] => []
  | [a] => a
  | a :: rest => a ++ sep :: joinChar sep rest

/-- The `segments[1:-1] = filter(None, segments[1:-1])` step of `urljoin`. -/
def filterMiddle (l : List Str) : List Str :=
  match l with
  | [] => []
  | [a] => [a]
  | a :: rest => a :: (rest.dropLast.filter (fun s => s ≠ [])) ++ [rest.getLastD []]

/-- The segment-resolution loop of `urljoin`: `..` pops, `.` is skipped. -/
def resolveSegments (segments : List Str) : List Str :=
  segments.foldl
    (fun acc seg =>
      if seg = ['.', '.'] then acc.dropLast
      else if seg = ['.'] then acc
      else acc ++ [seg]) []

/-- `urllib.parse.urljoin` (CPython 3.11). -/
def urljoin (base url : Str) : Except Unit Str :=
  if base = [] then Except.ok url
  else if url = [] then Except.ok base
  else
    match urlparse base [] with
    | Except.error e => Except.error e
    | Except.ok b =>
      match urlparse url b.scheme with
      | Except.error e => Except.error e
      | Except.ok u =>
        if u.scheme ≠ b.scheme ∨ u.scheme ∉ usesRelativeList then Except.ok url
        else if u.scheme ∈ usesNetlocList ∧ u.netloc ≠ [] then
          Except.ok (urlunparse ⟨u.scheme, u.netloc, u.path, u.params, u.query, u.fragment⟩)
        else
          let netloc := if u.scheme ∈ usesNetlocList then b.netloc else u.netloc
          if u.path = [] ∧ u.params = [] then
            let query := if u.query = [] then b.query else u.query
            Except.ok (urlunparse ⟨u.scheme, netloc, b.path, b.params, query, u.fragment⟩)
          else
            let baseParts0 := splitOnChar '/' b.path
            let baseParts := if baseParts0.getLastD [] ≠ [] then baseParts0.dropLast else baseParts0
            let segments :=
              if u.path.take 1 = ['/'] then splitOnChar '/' u.path
              else filterMiddle (baseParts ++ splitOnChar '/' u.path)
            let resolved0 := resolveSegments segments
            let resolved :=
              if segments.getLastD [] = ['.'] ∨ segments.getLastD [] = ['.', '.']
              then resolved0 ++ [[]] else resolved0
            let joined := joinChar '/' resolved
            let path := if joined = [] then ['/'] else joined
            Except.ok (urlunparse ⟨u.scheme, netloc, path, u.params, u.query, u.fragment⟩)

/-- `same_site` from `crawl_hardrace.py` lines 38-40: the URL's lowercased
host must be a member of the allowed-hosts set (exact match). -/
def same_site (url : Str) (allowed_hosts : List Str) : Except Unit Bool :=
  match urlsplit url [] with
  | Except.error e => Except.error e
  | Except.ok u => Except.ok (decide ((u.netloc.map lowerChar) ∈ allowed_hosts))

/-- Modelled from the spec: the public-suffix list consulted by the external
`tldextract` library (not part of this repository), restricted to the
suffixes exercised here; §4.2 "Extracts the registrable domain (effective
TLD + one label) from the start URL's host using public-suffix knowledge". -/
def publicSuffixList : List Str :=
  (["co.uk", "org.uk", "ac.uk", "uk", "com", "org", "net"]).map String.data

/-- Modelled from the spec: `tldextract.extract`, returning
(subdomain, domain, suffix) for a host, choosing the longest matching
public suffix from `publicSuffixList`. -/
def tldextractModel (host : Str) : Str × Str × Str :=
  let cands := publicSuffixList.filter
    (fun s => host = s ∨ ('.' :: s).isSuffixOf host)
  let best := cands.foldl
    (fun b s => match b with
      | none => some s
      | some b0 => if s.length > b0.length then some s else some b0) none
  match best with
  | none => ([], host, [])
  | some s =>
    if host = s then ([], [], s)
    else
      let front := host.take (host.length - s.length - 1)
      let domain := (front.reverse.takeWhile (fun c => c ≠ '.')).reverse
      let sub := ((front.reverse.dropWhile (fun c => c ≠ '.')).drop 1).reverse
      (sub, domain, s)

/-- `get_allowed_hosts` from `crawl_hardrace.py` lines 42-52.  The Python
set is modelled as a list; only membership is used. -/
def get_allowed_hosts (start_url : Str) : Except Unit (List Str) :=
  match urlsplit start_url [] with
  | Except.error e => Except.error e
  | Except.ok parts =>
    let host := parts.netloc.map lowerChar
    let ext := tldextractModel host
    let root_host := joinChar '.' (([ext.2.1, ext.2.2]).filter (fun p => p ≠ []))
    if ¬ (("www.").data.isPrefixOf host) ∧ root_host ≠ [] then
      Except.ok [host, ("www.").data ++ root_host, root_host]
    else Except.ok [host]

/-- Case-insensitive literal matching: consume `pat` (given lowercased) from
the front of `l`, comparing characters after `lowerChar`; models matching a
literal under `re.I`. -/
def stripLitCI (pat : Str) (l : Str) : Option Str :=
  match pat, l with
  | [], rest => some rest
  | _ :: _, [] => none
  | p :: ps, c :: cs => if lowerChar c = p then stripLitCI ps cs else none

/-- Positions tried by `re.search`: the matcher is run at every suffix. -/
def reSearch (m : Str → Bool) : Str → Bool
  | [] => m []
  | c :: rest => m (c :: rest) || reSearch m rest

/-- Python's `\s` on ASCII text. -/
def isSpaceRE (c : Char) : Bool :=
  c = ' ' || c = Char.ofNat 9 || c = Char.ofNat 10 || c = Char.ofNat 13 ||
  c = Char.ofNat 11 || c = Char.ofNat 12

/-- A match of `PRODUCT_JSONLD_RE` = `"@type"\s*:\s*"(?:Product|product)"`
(with `re.I`) starting at the head of the input. -/
def jsonldMatchAt (l : Str) : Bool :=
  match stripLitCI ("\"@type\"").data l with
  | none => false
  | some l1 =>
    match l1.dropWhile isSpaceRE with
    | ':' :: l3 =>
      (stripLitCI ("\"product\"").data (l3.dropWhile isSpaceRE)).isSome
    | _ => false

/-- `PRODUCT_JSONLD_RE.search` from `crawl_hardrace.py` line 23. -/
def PRODUCT_JSONLD_search (html : Str) : Bool := reSearch jsonldMatchAt html

/-- The `["']` character class. -/
def isQuote (c : Char) : Bool := c = '"' || c = apos

/-- `[^>]+` followed by the continuation `k`: at least one non-`>` character
is consumed, then `k` must match (existentially, as in regex search). -/
def gapSeek (k : Str → Bool) : Str → Bool
  | [] => false
  | c :: rest => if c = '>' then false else (k rest || gapSeek k rest)

/-- The `content=["']product["']` tail of `OG_PRODUCT_RE`. -/
def ogContentTail (l : Str) : Bool :=
  match stripLitCI ("content=").data l with
  | none => false
  | some [] => false
  | some (q :: l1) =>
    isQuote q &&
      (match stripLitCI ("product").data l1 with
       | some (r :: _) => isQuote r
       | _ => false)

/-- The `property=["']og:type["'][^>]+content=["']product["']` tail of
`OG_PRODUCT_RE`. -/
def ogPropTail (l : Str) : Bool :=
  match stripLitCI ("property=").data l with
  | none => false
  | some [] => false
  | some (q :: l1) =>
    isQuote q &&
      (match stripLitCI ("og:type").data l1 with
       | some (r :: l2) => isQuote r && gapSeek ogContentTail l2
       | _ => false)

/-- A match of `OG_PRODUCT_RE` =
`<meta[^>]+property=["']og:type["'][^>]+content=["']product["']` (with
`re.I`) starting at the head of the input.  Note the `property` attribute
must occur before `content`. -/
def ogMatchAt (l : Str) : Bool :=
  match stripLitCI ("<meta").data l with
  | none => false
  | some l1 => gapSeek ogPropTail l1

/-- `OG_PRODUCT_RE.search` from `crawl_hardrace.py` line 24. -/
def OG_PRODUCT_search (html : Str) : Bool := reSearch ogMatchAt html

/-- Python's `sub in s` substring test. -/
def containsSub (s sub : Str) : Bool := reSearch (fun l => sub.isPrefixOf l) s

/-- `is_product_html` from `crawl_hardrace.py` lines 54-64. -/
def is_product_html (html : Str) : Bool :=
  if html = [] then false
  else if PRODUCT_JSONLD_search html then true
  else if OG_PRODUCT_search html then true
  else if containsSub html (("class=\"product-info-main\"").data)
          || containsSub html (("product-info-main").data) then true
  else false

/-- Modelled from the spec (§4.5): the Content Classifier contract —
false on empty input, otherwise the logical OR of the three heuristics. -/
def is_product_page_spec (html : Str) : Bool :=
  html ≠ [] &&
    (PRODUCT_JSONLD_search html || OG_PRODUCT_search html ||
     containsSub html (("product-info-main").data))

/-- An `<a href=...>` tag as returned by `soup.find_all("a", href=True)`. -/
structure Anchor where
  href : Str
deriving Repr, DecidableEq

/-- A `<link ...>` tag: its `rel` attribute (joined token string) and its
`href` attribute, when present. -/
structure LinkTag where
  rel : Option Str
  href : Option Str
deriving Repr, DecidableEq

/-- The parts of a parsed `BeautifulSoup` document the crawler consumes:
its anchors in document order and its `<link>` tags.  The HTML parser
itself is an external collaborator and is treated as an oracle. -/
structure Soup where
  anchors : List Anchor
  linkTags : List LinkTag
deriving Repr, DecidableEq

/-- Python's `str.strip()` on ASCII text. -/
def pyStrip (s : Str) : Str :=
  ((s.dropWhile isSpaceRE).reverse.dropWhile isSpaceRE).reverse

/-- The skip test of `extract_links`: fragment-only, `mailto:` and `tel:`
hrefs are ignored. -/
def skipHref (href : Str) : Bool :=
  ("#").data.isPrefixOf href || ("mailto:").data.isPrefixOf href ||
  ("tel:").data.isPrefixOf href

/-- The anchor loop of `extract_links`; the accumulator models the Python
set by inserting unseen elements at the back.  An exception from `urljoin`
propagates, as in the source (there is no try/except around it). -/
def extract_links_aux (base_url : Str) : List Anchor → List Str → Except Unit (List Str)
  | [], acc => Except.ok acc
  | a :: rest, acc =>
    let href := pyStrip a.href
    if skipHref href then extract_links_aux base_url rest acc
    else
      match urljoin base_url href with
      | Except.error e => Except.error e
      | Except.ok absu =>
        extract_links_aux base_url rest (if absu ∈ acc then acc else acc ++ [absu])

/-- `extract_links` from `crawl_hardrace.py` lines 66-74. -/
def extract_links (soup : Soup) (base_url : Str) : Except Unit (List Str) :=
  extract_links_aux base_url soup.anchors []

/-- The `rel=lambda v: v and "canonical" in v.lower()` filter of
`get_canonical`. -/
def canonicalMatch (l : LinkTag) : Bool :=
  match l.rel with
  | some v => v ≠ [] && containsSub (v.map lowerChar) (("canonical").data)
  | none => false

/-- `get_canonical` from `crawl_hardrace.py` lines 76-83: resolve and
normalize the first `rel=canonical` link's href, falling back to
`normalize_url(url)` when it is absent, empty, or raises. -/
def get_canonical (soup : Soup) (url : Str) : Except Unit Str :=
  match soup.linkTags.find? canonicalMatch with
  | some l =>
    match l.href with
    | some href =>
      if href ≠ [] then
        match (match urljoin url href with
               | Except.error e => Except.error e
               | Except.ok j => normalize_url j) with
        | Except.ok r => Except.ok r
        | Except.error _ => normalize_url url
      else normalize_url url
    | none => normalize_url url
  | none => normalize_url url

/-- Outcome of `session.get`: a raised `requests.RequestException`, or a
response with status code, Content-Type header and body text. -/
inductive FetchResult where
  | exn : FetchResult
  | resp (status : Nat) (ctype : Str) (body : Str) : FetchResult
deriving DecidableEq

/-- The crawler's environment: the network (responses by URL) and the HTML
parser (a `Soup` per document text). -/
structure World where
  http : Str → FetchResult
  parse : Str → Soup

/-- `fetch` from `crawl_hardrace.py` lines 85-90: non-HTML content types
yield an empty body; transport failures raise. -/
def fetchM (w : World) (url : Str) : Except Unit (Nat × Str) :=
  match w.http url with
  | FetchResult.exn => Except.error ()
  | FetchResult.resp st ct body =>
    if containsSub ct (("text/html").data) || containsSub ct (("application/xhtml").data)
    then Except.ok (st, body)
    else Except.ok (st, [])

/-- The crawl parameters of `main`: the page budget (`--max-pages`), the
allowed-hosts set, and the robots policy (`rp.default_entry` truthiness and
`rp.can_fetch`). -/
structure Config where
  maxPages : Nat
  allowedHosts : List Str
  robotsDefault : Bool
  canFetch : Str → Bool

/-- The mutable state of `main`'s loop.  `fetched` is a ghost trace of the
URLs passed to `fetch`, in order; `crashed` records an uncaught exception. -/
structure CrawlState where
  q : List Str
  seen : List Str
  product_urls : List Str
  pages_crawled : Nat
  fetched : List Str
  crashed : Bool
deriving Repr, DecidableEq

/-- The state at loop entry: the frontier holds the normalized start URL. -/
def initState (start : Str) : CrawlState := ⟨[start], [], [], 0, [], false⟩

/-- The link-enqueueing loop of `main` (lines 152-155): normalize each link,
and append it to the frontier when it is same-site and not in the visited
set.  Exceptions from `normalize_url`/`same_site` propagate (crash). -/
def enqueueLinks (cfg : Config) : List Str → CrawlState → CrawlState
  | [], st => st
  | link :: rest, st =>
    if st.crashed then st
    else
      match normalize_url link with
      | Except.error _ => { st with crashed := true }
      | Except.ok n =>
        match same_site n cfg.allowedHosts with
        | Except.error _ => { st with crashed := true }
        | Except.ok ss =>
          enqueueLinks cfg rest
            (if ss = true ∧ n ∉ st.seen then { st with q := st.q ++ [n] } else st)

/-- The product-accumulation branch of `main` (lines 146-149). -/
def addProduct (cfg : Config) (soup : Soup) (url : Str) (s : CrawlState) : CrawlState :=
  match get_canonical soup url with
  | Except.error _ => { s with crashed := true }
  | Except.ok canon =>
    match same_site canon cfg.allowedHosts with
    | Except.error _ => { s with crashed := true }
    | Except.ok ss =>
      if ss = true ∧ canon ∉ s.product_urls
      then { s with product_urls := s.product_urls ++ [canon] }
      else s

/-- Processing of a successfully fetched HTML page (lines 143-155). -/
def processPage (w : World) (cfg : Config) (url : Str) (html : Str) (s : CrawlState) : CrawlState :=
  let soup := w.parse html
  let s4 := if is_product_html html then addProduct cfg soup url s else s
  if s4.crashed then s4
  else
    match extract_links soup url with
    | Except.error _ => { s4 with crashed := true }
    | Except.ok links => enqueueLinks cfg links s4

/-- One iteration of `main`'s while-loop (lines 122-158), including the loop
guard: when the frontier is empty or the budget is exhausted the state is
returned unchanged. -/
def step (w : World) (cfg : Config) (s : CrawlState) : CrawlState :=
  if s.crashed then s
  else
    match s.q with
    | [] => s
    | url :: rest =>
      if cfg.maxPages ≤ s.pages_crawled then s
      else if url ∈ s.seen then { s with q := rest }
      else
        let s1 : CrawlState := { s with q := rest, seen := url :: s.seen }
        match same_site url cfg.allowedHosts with
        | Except.error _ => { s1 with crashed := true }
        | Except.ok onSite =>
          if onSite = false then s1
          else if cfg.robotsDefault = true ∧ cfg.canFetch url = false then s1
          else
            let s2 : CrawlState := { s1 with fetched := s1.fetched ++ [url] }
            match fetchM w url with
            | Except.error _ => s2
            | Except.ok sh =>
              let s3 : CrawlState := { s2 with pages_crawled := s2.pages_crawled + 1 }
              if sh.1 ≠ 200 ∨ sh.2 = [] then s3
              else processPage w cfg url sh.2 s3

/-- `fuel` iterations of the crawl loop. -/
def run (w : World) (cfg : Config) : Nat → CrawlState → CrawlState
  | 0, s => s
  | n + 1, s => run w cfg n (step w cfg s)

/-- Start URL of the concrete crawl scenarios. -/
def urlS : Str := ("https://h.co/").data

/-- Page `/a` of the concrete crawl scenarios. -/
def urlA : Str := ("https://h.co/a").data

/-- Page `/b` of the concrete crawl scenarios. -/
def urlB : Str := ("https://h.co/b").data

/-- Page `/c` of the concrete crawl scenarios. -/
def urlC : Str := ("https://h.co/c").data

/-- A three-page site in which the start page links to `/a` and `/b`, and
both `/a` and `/b` link to `/c`. -/
def dupWorld : World :=
  { http := fun u =>
      if u = urlS then FetchResult.resp 200 (("text/html").data) (("s").data)
      else if u = urlA then FetchResult.resp 200 (("text/html").data) (("a1").data)
      else if u = urlB then FetchResult.resp 200 (("text/html").data) (("b1").data)
      else FetchResult.exn
    parse := fun h =>
      if h = ("s").data then ⟨[⟨("/a").data⟩, ⟨("/b").data⟩], []⟩
      else if h = ("a1").data then ⟨[⟨("/c").data⟩], []⟩
      else if h = ("b1").data then ⟨[⟨("/c").data⟩], []⟩
      else ⟨[], []⟩ }

/-- Configuration for `dupWorld`: generous budget, `h.co` in scope, no
robots entry. -/
def dupCfg : Config := ⟨10, [("h.co").data], false, fun _ => true⟩

/-- A site in which the start page links to `/a` and `/b`, fetching `/a`
fails with a transport error, and `/b` succeeds. -/
def budgetWorld : World :=
  { http := fun u =>
      if u = urlS then FetchResult.resp 200 (("text/html").data) (("s").data)
      else if u = urlA then FetchResult.exn
      else if u = urlB then FetchResult.resp 200 (("text/html").data) (("b1").data)
      else FetchResult.exn
    parse := fun h =>
      if h = ("s").data then ⟨[⟨("/a").data⟩, ⟨("/b").data⟩], []⟩
      else ⟨[], []⟩ }

/-- Configuration for `budgetWorld`: a page budget of 2. -/
def budgetCfg : Config := ⟨2, [("h.co").data], false, fun _ => true⟩

/-- The fetch-trace invariant: no URL has been fetched twice, and every
fetched URL is in the visited set. -/
def stateInv (s : CrawlState) : Prop :=
  s.fetched.Nodup ∧ ∀ u ∈ s.fetched, u ∈ s.seen

/-! ### Generic helper lemmas -/

theorem char_toNat_ofNat_valid (m : Nat) (h : m < 55296) : (Char.ofNat m).toNat = m := by
  rw [Char.ofNat, dif_pos (Or.inl h : Nat.isValidChar m)]
  simp [Char.ofNatAux, Char.toNat, UInt32.toNat]

theorem char_eq_of_toNat_eq {a b : Char} (h : a.toNat = b.toNat) : a = b := by
  apply Char.eq_of_val_eq
  apply UInt32.eq_of_toBitVec_eq
  exact BitVec.eq_of_toNat_eq h

theorem lowerChar_cases (c : Char) :
    lowerChar c = c ∨
    ((lowerChar c).toNat = c.toNat + 32 ∧ 65 ≤ c.toNat ∧ c.toNat ≤ 90) := by
  unfold lowerChar
  split
  · next h =>
    right
    refine ⟨?_, h.1, h.2⟩
    exact char_toNat_ofNat_valid _ (by omega)
  · left; rfl

theorem lowerChar_toNat (c : Char) :
    (lowerChar c).toNat = c.toNat ∨
    ((lowerChar c).toNat = c.toNat + 32 ∧ 65 ≤ c.toNat ∧ c.toNat ≤ 90) := by
  rcases lowerChar_cases c with h | h
  · left; rw [h]
  · right; exact h

theorem lowerChar_lowerChar (c : Char) : lowerChar (lowerChar c) = lowerChar c := by
  rcases lowerChar_cases c with h | h
  · rw [h]; exact h
  · rw [lowerChar]
    rw [if_neg (by omega)]

theorem lowerChar_fix_iff (c : Char) (d : Char)
    (hu : ¬ (65 ≤ d.toNat ∧ d.toNat ≤ 90)) (hl : ¬ (97 ≤ d.toNat ∧ d.toNat ≤ 122)) :
    (lowerChar c = d ↔ c = d) := by
  constructor
  · intro he
    rcases lowerChar_cases c with h | h
    · exact h ▸ he
    · have := congrArg Char.toNat he
      omega
  · intro he
    subst he
    rcases lowerChar_cases c with h | h
    · exact h
    · omega

theorem takeWhile_all {α : Type} (p : α → Bool) (l : List α) (h : ∀ c ∈ l, p c = true) :
    l.takeWhile p = l := by
  induction l with
  | nil => rfl
  | cons c t ih =>
    rw [List.takeWhile_cons, if_pos (h c (by simp))]
    rw [ih (fun x hx => h x (by simp [hx]))]

theorem dropWhile_all {α : Type} (p : α → Bool) (l : List α) (h : ∀ c ∈ l, p c = true) :
    l.dropWhile p = [] := by
  induction l with
  | nil => rfl
  | cons c t ih =>
    rw [List.dropWhile_cons, if_pos (h c (by simp))]
    exact ih (fun x hx => h x (by simp [hx]))

theorem takeWhile_app_stop {α : Type} (p : α → Bool) (a : List α) (b : α) (t : List α)
    (ha : ∀ c ∈ a, p c = true) (hb : p b = false) :
    (a ++ b :: t).takeWhile p = a := by
  induction a with
  | nil => simp [List.takeWhile_cons, hb]
  | cons c s ih =>
    rw [List.cons_append, List.takeWhile_cons, if_pos (ha c (by simp))]
    rw [ih (fun x hx => ha x (by simp [hx]))]

theorem dropWhile_app_stop {α : Type} (p : α → Bool) (a : List α) (b : α) (t : List α)
    (ha : ∀ c ∈ a, p c = true) (hb : p b = false) :
    (a ++ b :: t).dropWhile p = b :: t := by
  induction a with
  | nil => simp [List.dropWhile_cons, hb]
  | cons c s ih =>
    rw [List.cons_append, List.dropWhile_cons, if_pos (ha c (by simp))]
    exact ih (fun x hx => ha x (by simp [hx]))

theorem reSearch_of_matchAt (m : Str → Bool) (pre l : Str) (h : m l = true) :
    reSearch m (pre ++ l) = true := by
  induction pre with
  | nil =>
    cases l with
    | nil => simpa [reSearch] using h
    | cons c t => simp [reSearch, h]
  | cons c t ih =>
    rw [List.cons_append]
    unfold reSearch
    simp [ih]

theorem gapSeek_of (k : Str → Bool) (g l : Str) (hg : g ≠ [])
    (hgt : ∀ c ∈ g, c ≠ '>') (hk : k l = true) : gapSeek k (g ++ l) = true := by
  induction g with
  | nil => exact absurd rfl hg
  | cons c t ih =>
    rw [List.cons_append]
    unfold gapSeek
    rw [if_neg (hgt c (by simp))]
    cases t with
    | nil => simp [hk]
    | cons d s =>
      have hr := ih (by simp) (fun x hx => hgt x (by simp [hx]))
      rw [List.cons_append] at hr
      simp [hr]

theorem stripLitCI_map_lower (lit rest : Str) :
    stripLitCI (lit.map lowerChar) (lit ++ rest) = some rest := by
  induction lit with
  | nil => rfl
  | cons c t ih => simp [stripLitCI, ih]

theorem stripLitCI_self (pat rest : Str) (h : pat.map lowerChar = pat) :
    stripLitCI pat (pat ++ rest) = some rest := by
  have hm := stripLitCI_map_lower pat rest
  rwa [h] at hm

theorem containsSub_iff (s sub : Str) : containsSub s sub = true ↔ sub <:+: s := by
  induction s with
  | nil =>
    simp only [containsSub, reSearch]
    rw [List.isPrefixOf_iff_prefix]
    constructor
    · intro h; exact h.isInfix
    · intro h
      have he : sub = [] := List.sublist_nil.1 h.sublist
      simp [he]
  | cons c t ih =>
    simp only [containsSub, reSearch] at ih ⊢
    rw [Bool.or_eq_true, List.isPrefixOf_iff_prefix, ih]
    constructor
    · rintro (h | h)
      · exact h.isInfix
      · exact h.trans (List.suffix_cons c t).isInfix
    · intro h
      rcases h with ⟨pre, suf, he⟩
      cases pre with
      | nil => left; exact ⟨suf, by simpa using he⟩
      | cons x xs =>
        right
        rw [List.cons_append, List.cons_append] at he
        injection he with h1 h2
        exact ⟨xs, suf, h2⟩

/-! ### Crawl-engine helper lemmas -/

theorem enqueueLinks_seen (cfg : Config) (links : List Str) :
    ∀ st, (enqueueLinks cfg links st).seen = st.seen := by
  induction links with
  | nil => intro st; rfl
  | cons l rest ih =>
    intro st
    unfold enqueueLinks
    split
    · rfl
    · split
      · rfl
      · split
        · rfl
        · rw [ih]
          split <;> rfl

theorem enqueueLinks_fetched (cfg : Config) (links : List Str) :
    ∀ st, (enqueueLinks cfg links st).fetched = st.fetched := by
  induction links with
  | nil => intro st; rfl
  | cons l rest ih =>
    intro st
    unfold enqueueLinks
    split
    · rfl
    · split
      · rfl
      · split
        · rfl
        · rw [ih]
          split <;> rfl

theorem enqueueLinks_pages (cfg : Config) (links : List Str) :
    ∀ st, (enqueueLinks cfg links st).pages_crawled = st.pages_crawled := by
  induction links with
  | nil => intro st; rfl
  | cons l rest ih =>
    intro st
    unfold enqueueLinks
    split
    · rfl
    · split
      · rfl
      · split
        · rfl
        · rw [ih]
          split <;> rfl

theorem enqueueLinks_q_prop (cfg : Config) (links : List Str) :
    ∀ st u, u ∈ (enqueueLinks cfg links st).q → u ∈ st.q ∨ u ∉ st.seen := by
  induction links with
  | nil => intro st u hu; left; exact hu
  | cons l rest ih =>
    intro st u
    unfold enqueueLinks
    split
    · intro hu; left; exact hu
    · split
      · intro hu; left; exact hu
      · split
        · intro hu; left; exact hu
        · intro hu
          split at hu
          · next hcond =>
            rcases ih _ u hu with hq | hs
            · simp only [List.mem_append, List.mem_singleton] at hq
              rcases hq with hq | hq
              · left; exact hq
              · right; subst hq; exact hcond.2
            · right; exact hs
          · exact ih _ u hu

theorem addProduct_seen (cfg : Config) (soup : Soup) (url : Str) (s : CrawlState) :
    (addProduct cfg soup url s).seen = s.seen := by
  unfold addProduct
  split
  · rfl
  · split
    · rfl
    · split <;> rfl

theorem addProduct_q (cfg : Config) (soup : Soup) (url : Str) (s : CrawlState) :
    (addProduct cfg soup url s).q = s.q := by
  unfold addProduct
  split
  · rfl
  · split
    · rfl
    · split <;> rfl

theorem addProduct_fetched (cfg : Config) (soup : Soup) (url : Str) (s : CrawlState) :
    (addProduct cfg soup url s).fetched = s.fetched := by
  unfold addProduct
  split
  · rfl
  · split
    · rfl
    · split <;> rfl

theorem addProduct_pages (cfg : Config) (soup : Soup) (url : Str) (s : CrawlState) :
    (addProduct cfg soup url s).pages_crawled = s.pages_crawled := by
  unfold addProduct
  split
  · rfl
  · split
    · rfl
    · split <;> rfl

theorem processPage_seen (w : World) (cfg : Config) (url html : Str) (s : CrawlState) :
    (processPage w cfg url html s).seen = s.seen := by
  unfold processPage
  split
  all_goals dsimp only
  · split
    · exact addProduct_seen cfg (w.parse html) url s
    · split
      · exact addProduct_seen cfg (w.parse html) url s
      · rw [enqueueLinks_seen]
        exact addProduct_seen cfg (w.parse html) url s
  · split
    · rfl
    · split
      · rfl
      · rw [enqueueLinks_seen]

theorem processPage_fetched (w : World) (cfg : Config) (url html : Str) (s : CrawlState) :
    (processPage w cfg url html s).fetched = s.fetched := by
  unfold processPage
  split
  all_goals dsimp only
  · split
    · exact addProduct_fetched cfg (w.parse html) url s
    · split
      · exact addProduct_fetched cfg (w.parse html) url s
      · rw [enqueueLinks_fetched]
        exact addProduct_fetched cfg (w.parse html) url s
  · split
    · rfl
    · split
      · rfl
      · rw [enqueueLinks_fetched]

theorem processPage_pages (w : World) (cfg : Config) (url html : Str) (s : CrawlState) :
    (processPage w cfg url html s).pages_crawled = s.pages_crawled := by
  unfold processPage
  split
  all_goals dsimp only
  · split
    · exact addProduct_pages cfg (w.parse html) url s
    · split
      · exact addProduct_pages cfg (w.parse html) url s
      · rw [enqueueLinks_pages]
        exact addProduct_pages cfg (w.parse html) url s
  · split
    · rfl
    · split
      · rfl
      · rw [enqueueLinks_pages]

theorem processPage_q_prop (w : World) (cfg : Config) (url html : Str) (s : CrawlState) :
    ∀ u, u ∈ (processPage w cfg url html s).q → u ∈ s.q ∨ u ∉ s.seen := by
  intro u
  unfold processPage
  split
  all_goals dsimp only
  · split
    · intro hu
      left
      rw [addProduct_q] at hu
      exact hu
    · split
      · intro hu
        left
        rw [addProduct_q] at hu
        exact hu
      · intro hu
        have hp := enqueueLinks_q_prop cfg _ _ u hu
        rw [addProduct_q, addProduct_seen] at hp
        exact hp
  · split
    · intro hu; left; exact hu
    · split
      · intro hu; left; exact hu
      · intro hu
        exact enqueueLinks_q_prop cfg _ _ u hu

theorem step_seen_mono (w : World) (cfg : Config) (s : CrawlState) :
    s.seen ⊆ (step w cfg s).seen := by
  unfold step
  split
  · exact fun x hx => hx
  · split
    · exact fun x hx => hx
    · next url rest heq =>
      split
      · exact fun x hx => hx
      · split
        · exact fun x hx => hx
        · dsimp only
          have hsub : s.seen ⊆ url :: s.seen := fun x hx => List.mem_cons_of_mem _ hx
          split
          · exact hsub
          · split
            · exact hsub
            · split
              · exact hsub
              · split
                · exact hsub
                · split
                  · exact hsub
                  · rw [processPage_seen]
                    exact hsub

theorem step_pages_le (w : World) (cfg : Config) (s : CrawlState)
    (h : s.pages_crawled ≤ cfg.maxPages) :
    (step w cfg s).pages_crawled ≤ cfg.maxPages := by
  unfold step
  split
  · exact h
  · split
    · exact h
    · next url rest heq =>
      split
      · exact h
      · next hbud =>
        split
        · exact h
        · dsimp only
          split
          · exact h
          · split
            · exact h
            · split
              · exact h
              · split
                · exact h
                · split
                  · simp only []
                    omega
                  · rw [processPage_pages]
                    simp only []
                    omega

theorem step_inv (w : World) (cfg : Config) (s : CrawlState) (h : stateInv s) :
    stateInv (step w cfg s) := by
  obtain ⟨hnd, hmem⟩ := h
  unfold step
  split
  · exact ⟨hnd, hmem⟩
  · split
    · exact ⟨hnd, hmem⟩
    · next url rest heq =>
      split
      · exact ⟨hnd, hmem⟩
      · split
        · exact ⟨hnd, hmem⟩
        · next hnotseen =>
          dsimp only
          have hmem1 : ∀ u ∈ s.fetched, u ∈ url :: s.seen :=
            fun u hu => List.mem_cons_of_mem _ (hmem u hu)
          have hurlnf : url ∉ s.fetched := fun hin => hnotseen (hmem url hin)
          have hnd2 : (s.fetched ++ [url]).Nodup := by
            rw [List.nodup_append]
            exact ⟨hnd, List.nodup_singleton url, by simpa using hurlnf⟩
          have hmem2 : ∀ u ∈ s.fetched ++ [url], u ∈ url :: s.seen := by
            intro u hu
            rcases List.mem_append.1 hu with hu | hu
            · exact hmem1 u hu
            · simp only [List.mem_singleton] at hu
              subst hu
              exact List.mem_cons_self _ _
          split
          · exact ⟨hnd, hmem1⟩
          · split
            · exact ⟨hnd, hmem1⟩
            · split
              · exact ⟨hnd, hmem1⟩
              · split
                · exact ⟨hnd2, hmem2⟩
                · split
                  · exact ⟨hnd2, hmem2⟩
                  · constructor
                    · rw [processPage_fetched]
                      exact hnd2
                    · rw [processPage_fetched, processPage_seen]
                      exact hmem2

theorem step_visited_skip (w : World) (cfg : Config) (s : CrawlState) (url : Str)
    (rest : List Str) (hc : s.crashed = false) (hq : s.q = url :: rest)
    (hlt : s.pages_crawled < cfg.maxPages) (hmem : url ∈ s.seen) :
    step w cfg s = { s with q := rest } := by
  unfold step
  rw [hc, hq]
  rw [if_neg (Bool.false_ne_true)]
  dsimp only
  have hbud : ¬ (cfg.maxPages ≤ s.pages_crawled) := by omega
  rw [if_neg hbud, if_pos hmem]

theorem step_seen_ub (w : World) (cfg : Config) (s : CrawlState) :
    ∀ u ∈ (step w cfg s).seen, u ∈ s.seen ∨ u ∈ s.q := by
  intro u
  unfold step
  split
  · intro hu; left; exact hu
  · split
    · intro hu; left; exact hu
    · next url rest heq =>
      have hcons : ∀ v, v ∈ (url :: s.seen : List Str) → v ∈ s.seen ∨ v ∈ s.q := by
        intro v hv
        rcases List.mem_cons.1 hv with hv | hv
        · right; rw [heq, hv]; exact List.mem_cons_self _ _
        · left; exact hv
      split
      · intro hu; left; exact hu
      · split
        · intro hu; left; exact hu
        · dsimp only
          split
          · exact hcons u
          · split
            · exact hcons u
            · split
              · exact hcons u
              · split
                · exact hcons u
                · split
                  · exact hcons u
                  · rw [processPage_seen]
                    exact hcons u

theorem step_q_prop (w : World) (cfg : Config) (s : CrawlState) (url : Str)
    (rest : List Str) (hc : s.crashed = false) (hq : s.q = url :: rest)
    (hlt : s.pages_crawled < cfg.maxPages) :
    ∀ u ∈ (step w cfg s).q, u ∈ rest ∨ u ∉ (step w cfg s).seen := by
  intro u hu
  have hnotseen2 : u ∉ (url :: s.seen : List Str) → u ∈ rest ∨ u ∉ (step w cfg s).seen := by
    intro hp
    by_cases hin : u ∈ (step w cfg s).seen
    · rcases step_seen_ub w cfg s u hin with h1 | h1
      · exact absurd (List.mem_cons_of_mem _ h1) hp
      · rw [hq] at h1
        rcases List.mem_cons.1 h1 with h2 | h2
        · exact absurd (h2 ▸ List.mem_cons_self url s.seen) hp
        · left; exact h2
    · right; exact hin
  unfold step at hu
  rw [hc, hq] at hu
  rw [if_neg (Bool.false_ne_true)] at hu
  dsimp only at hu
  have hbud : ¬ (cfg.maxPages ≤ s.pages_crawled) := by omega
  rw [if_neg hbud] at hu
  split at hu
  · left; exact hu
  · split at hu
    · left; exact hu
    · split at hu
      · left; exact hu
      · split at hu
        · left; exact hu
        · split at hu
          · left; exact hu
          · split at hu
            · left; exact hu
            · have hp := processPage_q_prop w cfg url _ _ u hu
              rcases hp with hp | hp
              · left; exact hp
              · exact hnotseen2 hp

theorem run_seen_mono (w : World) (cfg : Config) :
    ∀ (n : Nat) (s : CrawlState), s.seen ⊆ (run w cfg n s).seen := by
  intro n
  induction n with
  | zero => intro s; exact fun x hx => hx
  | succ k ih =>
    intro s
    exact fun x hx => ih (step w cfg s) (step_seen_mono w cfg s hx)

theorem run_pages_le (w : World) (cfg : Config) :
    ∀ (n : Nat) (s : CrawlState), s.pages_crawled ≤ cfg.maxPages →
    (run w cfg n s).pages_crawled ≤ cfg.maxPages := by
  intro n
  induction n with
  | zero => intro s h; exact h
  | succ k ih =>
    intro s h
    exact ih (step w cfg s) (step_pages_le w cfg s h)

theorem run_inv (w : World) (cfg : Config) :
    ∀ (n : Nat) (s : CrawlState), stateInv s → stateInv (run w cfg n s) := by
  intro n
  induction n with
  | zero => intro s h; exact h
  | succ k ih =>
    intro s h
    exact ih (step w cfg s) (step_inv w cfg s h)

/-! ### Claims C1, C4, C7: frontier, budget, visited-set -/

/-- C1 counterexample: in `dupWorld` the pages `/a` and `/b` both link to
`/c`; after three iterations the frontier holds two copies of the same
normalized URL `https://h.co/c`, because the enqueue-time check consults
only the Visited Set (dequeued URLs) and `/c` has not been dequeued yet.
This refutes the claim that a normalized URL is enqueued at most once and
that the frontier never holds two copies. -/
theorem c1_frontier_holds_duplicates :
    (run dupWorld dupCfg 3 (initState urlS)).q = [urlC, urlC] ∧
    normalize_url urlC = Except.ok urlC := by
  constructor
  · decide
  · decide

/-- C1 (amended): the enqueue-time check is only against the Visited Set,
so after one iteration every URL in the frontier either was already queued
(in `rest`) or is not in the post-iteration Visited Set; a visited URL is
never (re-)enqueued, but an unvisited URL may be enqueued several times,
so the frontier can transiently hold duplicates (see the counterexample);
the dequeue-time check then discards the extra copies. -/
theorem c1_enqueue_checks_visited_only (w : World) (cfg : Config) (s : CrawlState)
    (url : Str) (rest : List Str) (hc : s.crashed = false) (hq : s.q = url :: rest)
    (hlt : s.pages_crawled < cfg.maxPages) :
    ∀ u ∈ (step w cfg s).q, u ∈ rest ∨ u ∉ (step w cfg s).seen :=
  step_q_prop w cfg s url rest hc hq hlt

/-- Witness for the amended C1 theorem at a concrete crawl state. -/
theorem c1_enqueue_checks_visited_only_witness :
    urlA ∈ ([] : List Str) ∨ urlA ∉ (step dupWorld dupCfg (initState urlS)).seen :=
  c1_enqueue_checks_visited_only dupWorld dupCfg (initState urlS) urlS [] rfl rfl
    (by decide) urlA (by decide)

/-- C4 counterexample: with a page budget of 2, the crawl in `budgetWorld`
performs three fetch attempts (`/a` fails with a transport error and does
not consume budget), so the total number of fetch attempts exceeds the
page budget; only completed responses are counted by `pages_crawled`. -/
theorem c4_transport_failure_not_counted :
    (run budgetWorld budgetCfg 5 (initState urlS)).fetched = [urlS, urlA, urlB] ∧
    budgetCfg.maxPages = 2 ∧
    budgetWorld.http urlA = FetchResult.exn ∧
    (run budgetWorld budgetCfg 5 (initState urlS)).pages_crawled = 2 := by
  refine ⟨by decide, by decide, by decide, by decide⟩

/-- C4 (amended): only fetches that complete with a response (whatever the
status) consume budget — a transport failure consumes none — and it is the
count of completed fetches, `pages_crawled`, that never exceeds the page
budget; the total number of fetch attempts can exceed it. -/
theorem c4_completed_fetches_le_budget (w : World) (cfg : Config) (s : CrawlState)
    (fuel : Nat) (h : s.pages_crawled ≤ cfg.maxPages) :
    (run w cfg fuel s).pages_crawled ≤ cfg.maxPages :=
  run_pages_le w cfg fuel s h

/-- Witness for the amended C4 theorem on the concrete budget scenario. -/
theorem c4_completed_fetches_le_budget_witness :
    (run budgetWorld budgetCfg 5 (initState urlS)).pages_crawled ≤ budgetCfg.maxPages :=
  c4_completed_fetches_le_budget budgetWorld budgetCfg (initState urlS) 5 (by decide)

/-- C7: in any crawl run from an initial state, no URL is ever passed to
`fetch` twice (the fetch trace has no duplicates), every fetched URL is in
the Visited Set, the Visited Set only grows, and a dequeued URL that is
already visited is discarded without any fetch or budget consumption. -/
theorem c7_no_url_fetched_twice :
    (∀ (w : World) (cfg : Config) (start : Str) (fuel : Nat),
      ((run w cfg fuel (initState start)).fetched).Nodup ∧
      ∀ u ∈ (run w cfg fuel (initState start)).fetched,
        u ∈ (run w cfg fuel (initState start)).seen) ∧
    (∀ (w : World) (cfg : Config) (fuel : Nat) (s : CrawlState),
      s.seen ⊆ (run w cfg fuel s).seen) ∧
    (∀ (w : World) (cfg : Config) (s : CrawlState) (url : Str) (rest : List Str),
      s.crashed = false → s.q = url :: rest → s.pages_crawled < cfg.maxPages →
      url ∈ s.seen → step w cfg s = { s with q := rest }) := by
  refine ⟨?_, ?_, ?_⟩
  · intro w cfg start fuel
    exact run_inv w cfg fuel (initState start) ⟨List.nodup_nil, by simp [initState]⟩
  · intro w cfg fuel s
    exact run_seen_mono w cfg fuel s
  · intro w cfg s url rest hc hq hlt hm
    exact step_visited_skip w cfg s url rest hc hq hlt hm

/-- Witness for C7 at a concrete state whose head URL is already visited:
the iteration discards it, changing nothing but the frontier. -/
theorem c7_no_url_fetched_twice_witness :
    step dupWorld dupCfg ⟨[urlS], [urlS], [], 0, [], false⟩ =
      { q := [], seen := [urlS], product_urls := [], pages_crawled := 0,
        fetched := [], crashed := false } :=
  c7_no_url_fetched_twice.2.2 dupWorld dupCfg ⟨[urlS], [urlS], [], 0, [], false⟩
    urlS [] rfl rfl (by decide) (by decide)

/-! ### Claims C5, C9, C10: the Content Classifier -/

theorem class_marker_imp (h : Str)
    (hc : containsSub h (("class=\"product-info-main\"").data) = true) :
    containsSub h (("product-info-main").data) = true := by
  rw [containsSub_iff] at hc ⊢
  refine List.IsInfix.trans ?_ hc
  exact ⟨("class=\"").data, [Char.ofNat 34], by decide⟩

/-- C9: the Content Classifier equals its specification: false on empty
input, and for non-empty HTML the OR of the three heuristics (JSON-LD
pattern, Open Graph pattern, `product-info-main` marker), with no
weighting.  The source's extra `class="product-info-main"` test is
subsumed by the plain marker test. -/
theorem c9_classifier_is_or_of_heuristics (html : Str) :
    is_product_html html = is_product_page_spec html := by
  unfold is_product_html is_product_page_spec
  by_cases he : html = []
  · simp [he]
  · rw [if_neg he]
    by_cases hJ : PRODUCT_JSONLD_search html = true
    · simp [he, hJ]
    · rw [if_neg hJ]
      by_cases hO : OG_PRODUCT_search html = true
      · simp [he, hJ, hO]
      · rw [if_neg hO]
        by_cases hM : containsSub html (("product-info-main").data) = true
        · simp [he, hJ, hO, hM]
        · have hC : containsSub html (("class=\"product-info-main\"").data) = false := by
            rcases Bool.eq_false_or_eq_true
              (containsSub html (("class=\"product-info-main\"").data)) with h0 | h0
            · exact absurd (class_marker_imp html h0) hM
            · exact h0
          simp [he, hJ, hO, hM, hC]

/-- C10: the JSON-LD heuristic fires on the pattern anywhere in the raw
HTML text — any document containing `"@type":"Product"` in any context
(plain text, a comment, a script) is classified as a product page. -/
theorem c10_jsonld_matches_anywhere (pre post : Str) :
    is_product_html (pre ++ (("\"@type\":\"Product\"").data ++ post)) = true := by
  have hJ : PRODUCT_JSONLD_search (pre ++ (("\"@type\":\"Product\"").data ++ post)) = true := by
    unfold PRODUCT_JSONLD_search
    apply reSearch_of_matchAt
    rfl
  have hne : pre ++ (("\"@type\":\"Product\"").data ++ post) ≠ [] := by
    intro h0
    rcases List.append_eq_nil.1 h0 with ⟨h1, h2⟩
    rcases List.append_eq_nil.1 h2 with ⟨h3, h4⟩
    exact absurd h3 (by decide)
  unfold is_product_html
  rw [if_neg hne, if_pos hJ]

/-- C5 counterexample: a meta tag carrying the same attributes with
`content` before `property` is not matched — `OG_PRODUCT_RE` requires the
`property` attribute to occur first — so the classifier returns false,
refuting order-insensitivity. -/
theorem c5_attribute_order_matters :
    is_product_html (("<meta content=\"product\" property=\"og:type\">").data) = false := by
  decide

/-- C5 (amended): the Open Graph heuristic fires (case-insensitively) on
every document containing a meta tag in which `property="og:type"` occurs
before `content="product"`, with arbitrary non-empty runs of non-`>`
characters between `<meta` and `property=` and between the two attributes;
it does not fire when `content` precedes `property` (see the
counterexample). -/
theorem c5_og_property_before_content (pre g1 g2 post : Str)
    (hg1 : g1 ≠ []) (hg2 : g2 ≠ [])
    (hgt1 : ∀ c ∈ g1, c ≠ '>') (hgt2 : ∀ c ∈ g2, c ≠ '>') :
    is_product_html
      (pre ++ (("<meta").data ++ (g1 ++ (("property=\"og:type\"").data ++
        (g2 ++ (("content=\"product\"").data ++ post)))))) = true := by
  have hO : OG_PRODUCT_search
      (pre ++ (("<meta").data ++ (g1 ++ (("property=\"og:type\"").data ++
        (g2 ++ (("content=\"product\"").data ++ post)))))) = true := by
    unfold OG_PRODUCT_search
    apply reSearch_of_matchAt
    show gapSeek ogPropTail
      (g1 ++ (("property=\"og:type\"").data ++
        (g2 ++ (("content=\"product\"").data ++ post)))) = true
    apply gapSeek_of _ _ _ hg1 hgt1
    show gapSeek ogContentTail (g2 ++ (("content=\"product\"").data ++ post)) = true
    apply gapSeek_of _ _ _ hg2 hgt2
    rfl
  have hne : pre ++ (("<meta").data ++ (g1 ++ (("property=\"og:type\"").data ++
      (g2 ++ (("content=\"product\"").data ++ post))))) ≠ [] := by
    intro h0
    rcases List.append_eq_nil.1 h0 with ⟨h1, h2⟩
    rcases List.append_eq_nil.1 h2 with ⟨h3, h4⟩
    exact absurd h3 (by decide)
  unfold is_product_html
  rw [if_neg hne]
  by_cases hJ : PRODUCT_JSONLD_search
      (pre ++ (("<meta").data ++ (g1 ++ (("property=\"og:type\"").data ++
        (g2 ++ (("content=\"product\"").data ++ post)))))) = true
  · rw [if_pos hJ]
  · rw [if_neg hJ, if_pos hO]

/-- Witness for the amended C5 theorem: a concrete tag with single-space
gaps is classified as a product page. -/
theorem c5_og_property_before_content_witness :
    is_product_html
      (([] : Str) ++ (("<meta").data ++ ([' '] ++ (("property=\"og:type\"").data ++
        ([' '] ++ (("content=\"product\"").data ++ (">").data)))))) = true :=
  c5_og_property_before_content [] [' '] [' '] ((">").data) (by decide) (by decide)
    (by decide) (by decide)

/-! ### Claim C3: the Site Scope Resolver -/

/-- C3 counterexample: for the start URL `https://www.hardrace.co.uk/` the
allowed-hosts set is exactly `{www.hardrace.co.uk}` — the bare registrable
domain `hardrace.co.uk` is NOT a member, because the www/non-www variants
are only added when the start host does not already begin with `www.`. -/
theorem c3_bare_domain_not_allowed :
    get_allowed_hosts (("https://www.hardrace.co.uk/").data) =
      Except.ok [("www.hardrace.co.uk").data] ∧
    ("hardrace.co.uk").data ∉ [("www.hardrace.co.uk").data] := by
  refine ⟨by decide, by decide⟩

/-- C3 (amended): for the start URL `https://www.hardrace.co.uk/` the
allowed-hosts set contains only `www.hardrace.co.uk` (excluding both the
bare domain and `hardrace.co.uk.evil.com`, since matching is by exact list
membership); only for a start host that does not begin with `www.`, such
as `https://hardrace.co.uk/`, does the set contain both the bare domain
and its `www.` variant (and still not the evil host). -/
theorem c3_allowed_hosts_exact :
    get_allowed_hosts (("https://www.hardrace.co.uk/").data) =
      Except.ok [("www.hardrace.co.uk").data] ∧
    get_allowed_hosts (("https://hardrace.co.uk/").data) =
      Except.ok [("hardrace.co.uk").data, ("www.hardrace.co.uk").data,
        ("hardrace.co.uk").data] ∧
    ("hardrace.co.uk.evil.com").data ∉ [("www.hardrace.co.uk").data] ∧
    ("hardrace.co.uk.evil.com").data ∉
      [("hardrace.co.uk").data, ("www.hardrace.co.uk").data, ("hardrace.co.uk").data] := by
  refine ⟨by decide, by decide, by decide, by decide⟩

/-! ### Claim C8: the Canonical Resolver -/

theorem extract_aux_ok_iff (base : Str) (l : List Anchor) :
    ∀ acc, (extract_links_aux base l acc).isOk = true ↔
      ∀ a ∈ l, skipHref (pyStrip a.href) = true ∨
        (urljoin base (pyStrip a.href)).isOk = true := by
  induction l with
  | nil => intro acc; simp [extract_links_aux, Except.isOk, Except.toBool]
  | cons a rest ih =>
    intro acc
    unfold extract_links_aux
    dsimp only
    split
    · next hskip =>
      rw [ih]
      constructor
      · intro h b hb
        rcases List.mem_cons.1 hb with hb | hb
        · subst hb; left; exact hskip
        · exact h b hb
      · intro h b hb
        exact h b (List.mem_cons_of_mem _ hb)
    · next hnskip =>
      split
      · next e heq =>
        constructor
        · intro h; exact absurd h (by simp [Except.isOk, Except.toBool])
        · intro h
          rcases h a (List.mem_cons_self _ _) with h1 | h1
          · exact absurd h1 hnskip
          · rw [heq] at h1
            exact absurd h1 (by simp [Except.isOk, Except.toBool])
      · next absu heq =>
        rw [ih]
        constructor
        · intro h b hb
          rcases List.mem_cons.1 hb with hb | hb
          · subst hb; right; rw [heq]; simp [Except.isOk, Except.toBool]
          · exact h b hb
        · intro h b hb
          exact h b (List.mem_cons_of_mem _ hb)

theorem extract_aux_mem (base : Str) (l : List Anchor) :
    ∀ acc res, extract_links_aux base l acc = Except.ok res →
      (∀ u ∈ acc, u ∈ res) ∧
      (∀ a ∈ l, skipHref (pyStrip a.href) = false →
        ∀ u, urljoin base (pyStrip a.href) = Except.ok u → u ∈ res) := by
  induction l with
  | nil =>
    intro acc res h
    injection h with h
    subst h
    exact ⟨fun u hu => hu, by simp⟩
  | cons a rest ih =>
    intro acc res h
    unfold extract_links_aux at h
    dsimp only at h
    split at h
    · next hskip =>
      obtain ⟨hacc, hrest⟩ := ih acc res h
      refine ⟨hacc, ?_⟩
      intro b hb hbs u hj
      rcases List.mem_cons.1 hb with hb | hb
      · subst hb; rw [hskip] at hbs; cases hbs
      · exact hrest b hb hbs u hj
    · next hnskip =>
      split at h
      · cases h
      · next absu heq =>
        obtain ⟨hacc, hrest⟩ := ih _ res h
        have hstep : ∀ u, u ∈ acc → u ∈ (if absu ∈ acc then acc else acc ++ [absu]) := by
          intro u hu
          by_cases hin : absu ∈ acc
          · rw [if_pos hin]; exact hu
          · rw [if_neg hin]; exact List.mem_append_left _ hu
        have habs : absu ∈ res := by
          apply hacc
          by_cases hin : absu ∈ acc
          · rw [if_pos hin]; exact hin
          · rw [if_neg hin]; exact List.mem_append_right _ (by simp)
        refine ⟨fun u hu => hacc u (hstep u hu), ?_⟩
        intro b hb hbs u hj
        rcases List.mem_cons.1 hb with hb | hb
        · subst hb
          have := heq.symm.trans hj
          injection this with this
          subst this
          exact habs
        · exact hrest b hb hbs u hj

/-- C8: the Canonical Resolver returns the first `rel=canonical` link's
href resolved against the fetched URL and normalized whenever that href is
present, non-empty and resolvable; with no canonical link it returns
`normalize_url(fetched_url)`; and concretely, a page fetched at
`https://site.com/p?ref=abc` declaring `<link rel="canonical" href="/p">`
yields `https://site.com/p`. -/
theorem c8_canonical_resolution :
    (∀ (soup : Soup) (url : Str) (l : LinkTag) (href r : Str),
      soup.linkTags.find? canonicalMatch = some l →
      l.href = some href → href ≠ [] →
      (match urljoin url href with
       | Except.error e => Except.error e
       | Except.ok j => normalize_url j) = Except.ok r →
      get_canonical soup url = Except.ok r) ∧
    (∀ (soup : Soup) (url : Str),
      soup.linkTags.find? canonicalMatch = none →
      get_canonical soup url = normalize_url url) ∧
    get_canonical ⟨[], [⟨some (("canonical").data), some (("/p").data)⟩]⟩
      (("https://site.com/p?ref=abc").data) = Except.ok (("https://site.com/p").data) := by
  refine ⟨?_, ?_, by decide⟩
  · intro soup url l href r hfind hhref hne hjoin
    unfold get_canonical
    rw [hfind]
    dsimp only
    rw [hhref]
    dsimp only
    rw [if_pos hne, hjoin]
  · intro soup url hfind
    unfold get_canonical
    rw [hfind]

/-- Witness for C8 on a page whose first link is not canonical and whose
second declares `/q` as canonical. -/
theorem c8_canonical_resolution_witness :
    get_canonical
      ⟨[], [⟨some (("stylesheet").data), some (("/s.css").data)⟩,
            ⟨some (("canonical").data), some (("/q").data)⟩]⟩
      (("https://site.com/a/b?x=1").data) = Except.ok (("https://site.com/q").data) :=
  c8_canonical_resolution.1
    ⟨[], [⟨some (("stylesheet").data), some (("/s.css").data)⟩,
          ⟨some (("canonical").data), some (("/q").data)⟩]⟩
    (("https://site.com/a/b?x=1").data)
    ⟨some (("canonical").data), some (("/q").data)⟩
    (("/q").data) (("https://site.com/q").data)
    (by decide) rfl (by decide) (by decide)

/-- C6 counterexample: an unresolvable href (an authority with an
unbalanced `[`) makes `extract_links` raise — there is no try/except in it
— so the links from the other anchors of the page (here
`https://h.co/good`) are lost, refuting "silently ignored for that single
link only". -/
theorem c6_unresolvable_href_raises :
    extract_links ⟨[⟨("https://h.co/good").data⟩, ⟨("//[bad").data⟩], []⟩
      (("https://h.co/x").data) = Except.error () := by
  decide

/-- C6 (amended): hrefs that are fragment-only, `mailto:` or `tel:` are
skipped individually; `extract_links` succeeds exactly when every other
(stripped) href resolves under `urljoin` — a single unresolvable href
raises and aborts extraction for the whole page — and on success every
resolved link of the page is in the result. -/
theorem c6_unresolvable_href_aborts_page (soup : Soup) (base : Str) :
    ((extract_links soup base).isOk = true ↔
      ∀ a ∈ soup.anchors, skipHref (pyStrip a.href) = true ∨
        (urljoin base (pyStrip a.href)).isOk = true) ∧
    (∀ res, extract_links soup base = Except.ok res →
      ∀ a ∈ soup.anchors, skipHref (pyStrip a.href) = false →
      ∀ u, urljoin base (pyStrip a.href) = Except.ok u → u ∈ res) :=
  ⟨extract_aux_ok_iff base soup.anchors [],
   fun res h => (extract_aux_mem base soup.anchors [] res h).2⟩

/-- Witness for the amended C6 theorem: on a page with one relative href,
one absolute href, one fragment and one mailto link, the resolved first
anchor is in the result set. -/
theorem c6_unresolvable_href_aborts_page_witness :
    ("https://h.co/a").data ∈
      [("https://h.co/a").data, ("https://h.co/x/b").data] :=
  (c6_unresolvable_href_aborts_page
      ⟨[⟨(" /a ").data⟩, ⟨("#frag").data⟩, ⟨("mailto:x@y").data⟩, ⟨("b").data⟩], []⟩
      (("https://h.co/x/").data)).2
    [("https://h.co/a").data, ("https://h.co/x/b").data] (by decide)
    ⟨(" /a ").data⟩ (by decide) (by decide)
    (("https://h.co/a").data) (by decide)

/-! ### Claim C2: idempotence of the URL Normalizer -/

/-- C2 counterexample: rule 4 strips exactly one trailing slash, so a path
ending in two slashes is not a fixed point after one application:
`normalize(https://x.com/a//)` is `https://x.com/a/`, and normalizing
again gives the different string `https://x.com/a`. -/
theorem c2_double_slash_not_idempotent :
    normalize_url (("https://x.com/a//").data) = Except.ok (("https://x.com/a/").data) ∧
    normalize_url (("https://x.com/a/").data) = Except.ok (("https://x.com/a").data) ∧
    ("https://x.com/a/").data ≠ ("https://x.com/a").data := by
  refine ⟨by decide, by decide, by decide⟩

theorem char_eq_iff_toNat (c d : Char) : c = d ↔ c.toNat = d.toNat :=
  ⟨fun h => congrArg Char.toNat h, char_eq_of_toNat_eq⟩

theorem isSchemeChar_iff (c : Char) : isSchemeChar c = true ↔
    ((65 ≤ c.toNat ∧ c.toNat ≤ 90) ∨ (97 ≤ c.toNat ∧ c.toNat ≤ 122) ∨
     (48 ≤ c.toNat ∧ c.toNat ≤ 57) ∨ c.toNat = 43 ∨ c.toNat = 45 ∨ c.toNat = 46) := by
  have hp : ('+').toNat = 43 := by decide
  have hm : ('-').toNat = 45 := by decide
  have hd : ('.').toNat = 46 := by decide
  simp only [isSchemeChar, isAsciiAlpha, Bool.or_eq_true, decide_eq_true_eq,
    char_eq_iff_toNat, hp, hm, hd]
  omega

theorem isNetlocDelim_iff (c : Char) : isNetlocDelim c = true ↔
    (c.toNat = 47 ∨ c.toNat = 63 ∨ c.toNat = 35) := by
  have hs : ('/').toNat = 47 := by decide
  have hq : ('?').toNat = 63 := by decide
  have hh : ('#').toNat = 35 := by decide
  simp only [isNetlocDelim, Bool.or_eq_true, decide_eq_true_eq,
    char_eq_iff_toNat, hs, hq, hh]
  omega

theorem cleanChar_iff (c : Char) : cleanChar c ↔
    (c.toNat ≠ 9 ∧ c.toNat ≠ 13 ∧ c.toNat ≠ 10) := by
  unfold cleanChar
  rw [ne_eq, ne_eq, ne_eq, char_eq_iff_toNat, char_eq_iff_toNat, char_eq_iff_toNat]
  have h9 : (Char.ofNat 9).toNat = 9 := by decide
  have h13 : (Char.ofNat 13).toNat = 13 := by decide
  have h10 : (Char.ofNat 10).toNat = 10 := by decide
  rw [h9, h13, h10]

theorem lowerChar_isSchemeChar (c : Char) (h : isSchemeChar c = true) :
    isSchemeChar (lowerChar c) = true := by
  rw [isSchemeChar_iff] at h ⊢
  rcases lowerChar_toNat c with h0 | ⟨h0, h1, h2⟩ <;> omega

theorem lowerChar_isAsciiAlpha (c : Char) (h : isAsciiAlpha c = true) :
    isAsciiAlpha (lowerChar c) = true := by
  simp only [isAsciiAlpha, decide_eq_true_eq] at h ⊢
  rcases lowerChar_toNat c with h0 | ⟨h0, h1, h2⟩ <;> omega

theorem lowerChar_isNetlocDelim (c : Char) (h : isNetlocDelim c = false) :
    isNetlocDelim (lowerChar c) = false := by
  rcases Bool.eq_false_or_eq_true (isNetlocDelim (lowerChar c)) with h0 | h0
  case inr => exact h0
  · exfalso
    rw [isNetlocDelim_iff] at h0
    have h1 : ¬ (isNetlocDelim c = true) := by simp [h]
    rw [isNetlocDelim_iff] at h1
    rcases lowerChar_toNat c with h2 | ⟨h2, h3, h4⟩ <;> omega

theorem lowerChar_cleanChar (c : Char) (h : cleanChar c) : cleanChar (lowerChar c) := by
  rw [cleanChar_iff] at h ⊢
  rcases lowerChar_toNat c with h0 | ⟨h0, h1, h2⟩ <;> omega

theorem lowerChar_ascii (c : Char) (h : c.toNat < 128) : (lowerChar c).toNat < 128 := by
  rcases lowerChar_toNat c with h0 | ⟨h0, h1, h2⟩ <;> omega

theorem mem_map_lowerChar_bracket (N : Str) (d : Char)
    (hu : ¬ (65 ≤ d.toNat ∧ d.toNat ≤ 90)) (hl : ¬ (97 ≤ d.toNat ∧ d.toNat ≤ 122)) :
    d ∈ N.map lowerChar ↔ d ∈ N := by
  rw [List.mem_map]
  constructor
  · rintro ⟨c, hc, he⟩
    rwa [(lowerChar_fix_iff c d hu hl).1 he] at hc
  · intro hd
    exact ⟨d, hd, (lowerChar_fix_iff d d hu hl).2 rfl⟩

theorem map_lowerChar_idem (l : Str) : (l.map lowerChar).map lowerChar = l.map lowerChar := by
  rw [List.map_map]
  apply List.map_congr_left
  intro c _
  exact lowerChar_lowerChar c

theorem removeUnsafe_all_clean (l : Str) : ∀ c ∈ removeUnsafe l, cleanChar c := by
  intro c hc
  have := List.of_mem_filter hc
  exact of_decide_eq_true this

theorem removeUnsafe_eq_self (l : Str) (h : ∀ c ∈ l, cleanChar c) : removeUnsafe l = l := by
  apply List.filter_eq_self.2
  intro c hc
  exact decide_eq_true (h c hc)

theorem takeWhile_headD (p : Char → Bool) (u : Str) (d : Char)
    (h : u.takeWhile p ≠ []) : (u.takeWhile p).headD d = u.headD d := by
  cases u with
  | nil => simp at h
  | cons c t =>
    rw [List.takeWhile_cons] at h ⊢
    by_cases hp : p c = true
    · rw [if_pos hp]
      rfl
    · rw [if_neg hp] at h
      simp at h

theorem schemeSplit_fst_props (u : Str) :
    (schemeSplit u).1 = [] ∨
    ((schemeSplit u).1 ≠ [] ∧ isAsciiAlpha ((schemeSplit u).1.headD ' ') = true ∧
     (∀ c ∈ (schemeSplit u).1, isSchemeChar c = true) ∧
     ((schemeSplit u).1.map lowerChar = (schemeSplit u).1)) := by
  unfold schemeSplit
  dsimp only
  split
  · next hcond =>
    obtain ⟨hlen, hne, halpha, hall⟩ := hcond
    right
    rw [List.all_eq_true] at hall
    refine ⟨by simpa using hne, ?_, ?_, map_lowerChar_idem _⟩
    · have hh : (u.takeWhile (fun c => c ≠ ':')).headD ' ' = u.headD ' ' :=
        takeWhile_headD _ u ' ' hne
      cases hw : u.takeWhile (fun c => c ≠ ':') with
      | nil => exact absurd hw hne
      | cons c t =>
        rw [hw] at hh
        simp only [hw, List.map_cons, List.headD_cons] at hh ⊢
        rw [hh]
        exact lowerChar_isAsciiAlpha _ halpha
    · intro c hc
      rw [List.mem_map] at hc
      obtain ⟨c0, hc0, he⟩ := hc
      rw [← he]
      exact lowerChar_isSchemeChar c0 (hall c0 hc0)
  · left; rfl

theorem netlocSplit_fst_delim (u : Str) :
    ∀ c ∈ (netlocSplit u).1, isNetlocDelim c = false := by
  unfold netlocSplit
  split
  · intro c hc
    have := List.mem_takeWhile_imp hc
    simpa using this
  · intro c hc
    simp at hc

theorem mem_of_mem_takeWhile {α : Type} (p : α → Bool) (l : List α) (a : α)
    (h : a ∈ l.takeWhile p) : a ∈ l :=
  (List.takeWhile_sublist p).subset h

theorem urlsplit_ok_props (x : Str) (sp : SplitResult) (h : urlsplit x [] = Except.ok sp) :
    (sp.scheme = [] ∨
      (sp.scheme ≠ [] ∧ isAsciiAlpha (sp.scheme.headD ' ') = true ∧
       (∀ c ∈ sp.scheme, isSchemeChar c = true) ∧ sp.scheme.map lowerChar = sp.scheme)) ∧
    (∀ c ∈ sp.netloc, isNetlocDelim c = false) ∧
    (('[' ∈ sp.netloc) ↔ (']' ∈ sp.netloc)) ∧
    (∀ c ∈ sp.netloc, c.toNat < 128) ∧
    (∀ c ∈ sp.path, c ≠ '#' ∧ c ≠ '?') ∧
    (∀ c ∈ sp.netloc, cleanChar c) ∧ (∀ c ∈ sp.path, cleanChar c) := by
  unfold urlsplit at h
  dsimp only at h
  split at h
  · exact absurd h (by simp)
  · split at h
    · exact absurd h (by simp)
    · next hipv6 hascii =>
      injection h with h
      subst h
      dsimp only
      have hclean1 : ∀ c ∈ removeUnsafe x, cleanChar c := removeUnsafe_all_clean x
      have hclean2 : ∀ c ∈ (schemeSplit (removeUnsafe x)).2, cleanChar c := by
        intro c hc
        apply hclean1
        unfold schemeSplit at hc
        dsimp only at hc
        split at hc
        · exact (List.drop_sublist _ _).subset hc
        · exact hc
      have hcleannl : ∀ c ∈ (netlocSplit (schemeSplit (removeUnsafe x)).2).1, cleanChar c := by
        intro c hc
        apply hclean2
        unfold netlocSplit at hc
        split at hc
        · exact (List.drop_sublist _ _).subset (mem_of_mem_takeWhile _ _ _ hc)
        · simp at hc
      have hcleanrest : ∀ c ∈ (netlocSplit (schemeSplit (removeUnsafe x)).2).2, cleanChar c := by
        intro c hc
        apply hclean2
        unfold netlocSplit at hc
        split at hc
        · exact (List.drop_sublist _ _).subset ((List.dropWhile_sublist _).subset hc)
        · exact hc
      refine ⟨?_, netlocSplit_fst_delim _, ?_, ?_, ?_, hcleannl, ?_⟩
      · by_cases hsch : (schemeSplit (removeUnsafe x)).1 = []
      
        · left
          rw [if_pos hsch]
          rfl
        · rw [if_neg hsch]
          rcases schemeSplit_fst_props (removeUnsafe x) with h0 | h0
          · exact absurd h0 hsch
          · right; exact h0
      · constructor
        · intro hl
          by_contra hr
          exact hipv6 (Or.inl ⟨hl, hr⟩)
        · intro hr
          by_contra hl
          exact hipv6 (Or.inr ⟨hr, hl⟩)
      · intro c hc
        rw [not_not] at hascii
        rw [List.all_eq_true] at hascii
        simpa using hascii c hc
      · intro c hc
        unfold splitAtFirst at hc
        dsimp only at hc
        constructor
        · have hmem : c ∈ (netlocSplit (schemeSplit (removeUnsafe x)).2).2.takeWhile
              (fun x => x ≠ '#') := mem_of_mem_takeWhile _ _ _ hc
          have := List.mem_takeWhile_imp hmem
          simpa using this
        · have := List.mem_takeWhile_imp hc
          simpa using this
      · intro c hc
        unfold splitAtFirst at hc
        dsimp only at hc
        exact hcleanrest c
          (mem_of_mem_takeWhile _ _ _ (mem_of_mem_takeWhile _ _ _ hc))

theorem headD_append (a b : Str) (d : Char) (h : a ≠ []) :
    (a ++ b).headD d = a.headD d := by
  cases a with
  | nil => exact absurd rfl h
  | cons c t => rfl

theorem drop_scheme (a : Str) (c : Char) (b : Str) :
    (a ++ c :: b).drop (a.length + 1) = b := by
  have h1 : a ++ c :: b = (a ++ [c]) ++ b := by simp
  have h2 : a.length + 1 = (a ++ [c]).length := by simp
  rw [h1, h2, List.drop_left]

theorem schemeSplit_out (S rest : Str) (hS1 : S ≠ [])
    (hS2 : isAsciiAlpha (S.headD ' ') = true)
    (hS3 : ∀ c ∈ S, isSchemeChar c = true) (hS4 : S.map lowerChar = S) :
    schemeSplit (S ++ ':' :: rest) = (S, rest) := by
  have htw : (S ++ ':' :: rest).takeWhile (fun c => c ≠ ':') = S := by
    apply takeWhile_app_stop
    · intro c hc
      have hsc := hS3 c hc
      rw [decide_eq_true_eq]
      intro he
      subst he
      exact absurd hsc (by decide)
    · decide
  unfold schemeSplit
  dsimp only
  rw [htw]
  have hcond : S.length < (S ++ ':' :: rest).length ∧ S ≠ [] ∧
      isAsciiAlpha ((S ++ ':' :: rest).headD ' ') = true ∧ S.all isSchemeChar := by
    refine ⟨by simp, hS1, ?_, List.all_eq_true.2 (fun c hc => hS3 c hc)⟩
    rw [headD_append _ _ _ hS1]
    exact hS2
  rw [if_pos hcond, hS4, drop_scheme]

theorem netlocSplit_out (N T : Str) (hN : ∀ c ∈ N, isNetlocDelim c = false) :
    netlocSplit ('/' :: '/' :: (N ++ '/' :: T)) = (N, '/' :: T) := by
  unfold netlocSplit
  have hc2 : List.take 2 ('/' :: '/' :: (N ++ '/' :: T)) = ['/', '/'] := rfl
  rw [if_pos hc2]
  have ha : ∀ c ∈ N, (fun c => ¬ isNetlocDelim c : Char → Bool) c = true := by
    intro c hc
    simp [hN c hc]
  have hb : (fun c => ¬ isNetlocDelim c : Char → Bool) '/' = false := by decide
  rw [show (('/' :: '/' :: (N ++ '/' :: T)).drop 2) = N ++ '/' :: T from rfl]
  rw [takeWhile_app_stop _ N '/' T ha hb, dropWhile_app_stop _ N '/' T ha hb]

theorem netlocSplit_not2 (u : Str) (h : u.take 2 ≠ ['/', '/']) :
    netlocSplit u = ([], u) := by
  unfold netlocSplit
  rw [if_neg h]

theorem splitAtFirst_none (c : Char) (u : Str) (h : ∀ d ∈ u, d ≠ c) :
    splitAtFirst c u = (u, []) := by
  unfold splitAtFirst
  rw [takeWhile_all _ _ (fun d hd => decide_eq_true (h d hd)),
    dropWhile_all _ _ (fun d hd => decide_eq_true (h d hd))]
  rfl

theorem urlsplit_outA (S N T : Str)
    (hS1 : S ≠ []) (hS2 : isAsciiAlpha (S.headD ' ') = true)
    (hS3 : ∀ c ∈ S, isSchemeChar c = true) (hS4 : S.map lowerChar = S)
    (hN1 : ∀ c ∈ N, isNetlocDelim c = false)
    (hN2 : ('[' ∈ N) ↔ (']' ∈ N))
    (hN3 : ∀ c ∈ N, c.toNat < 128)
    (hT : ∀ c ∈ ('/' :: T : Str), c ≠ '#' ∧ c ≠ '?')
    (hclean : ∀ c ∈ S ++ N ++ ('/' :: T), cleanChar c) :
    urlsplit (S ++ ':' :: ('/' :: '/' :: (N ++ '/' :: T))) [] =
      Except.ok ⟨S, N, '/' :: T, [], []⟩ := by
  have hcleanall : ∀ c ∈ S ++ ':' :: ('/' :: '/' :: (N ++ '/' :: T)), cleanChar c := by
    intro c hc
    simp only [List.mem_append, List.mem_cons] at hc
    have hlit : c = ':' ∨ c = '/' → cleanChar c := by rintro (rfl | rfl) <;> decide
    have hmem : c ∈ S ∨ c ∈ N ∨ c ∈ T → cleanChar c := by
      intro h3
      apply hclean c
      simp only [List.mem_append, List.mem_cons]
      tauto
    tauto
  unfold urlsplit
  try dsimp only
  rw [removeUnsafe_eq_self _ hcleanall,
    schemeSplit_out S _ hS1 hS2 hS3 hS4]
  try dsimp only
  rw [netlocSplit_out N T hN1]
  try dsimp only
  rw [if_neg (by
    rintro (⟨hl, hr⟩ | ⟨hl, hr⟩)
    · exact hr (hN2.1 hl)
    · exact hr (hN2.2 hl))]
  rw [if_neg (by
    rw [not_not, List.all_eq_true]
    intro c hc
    exact decide_eq_true (hN3 c hc))]
  try dsimp only
  rw [splitAtFirst_none '#' _ (fun d hd => (hT d hd).1)]
  try dsimp only
  rw [splitAtFirst_none '?' _ (fun d hd => (hT d hd).2)]
  rw [if_neg hS1]

theorem urlsplit_outB (S P : Str)
    (hS1 : S ≠ []) (hS2 : isAsciiAlpha (S.headD ' ') = true)
    (hS3 : ∀ c ∈ S, isSchemeChar c = true) (hS4 : S.map lowerChar = S)
    (hP2 : ∀ c ∈ P, c ≠ '#' ∧ c ≠ '?')
    (hPtake : P.take 2 ≠ ['/', '/'])
    (hclean : ∀ c ∈ S ++ P, cleanChar c) :
    urlsplit (S ++ ':' :: P) [] = Except.ok ⟨S, [], P, [], []⟩ := by
  have hcleanall : ∀ c ∈ S ++ ':' :: P, cleanChar c := by
    intro c hc
    simp only [List.mem_append, List.mem_cons] at hc
    have hlit : c = ':' → cleanChar c := by rintro rfl; decide
    have hmem : c ∈ S ∨ c ∈ P → cleanChar c := by
      intro h3
      apply hclean c
      simp only [List.mem_append, List.mem_cons]
      tauto
    tauto
  unfold urlsplit
  try dsimp only
  rw [removeUnsafe_eq_self _ hcleanall,
    schemeSplit_out S _ hS1 hS2 hS3 hS4]
  try dsimp only
  rw [netlocSplit_not2 P hPtake]
  try dsimp only
  rw [if_neg (by rintro (⟨hl, _⟩ | ⟨hl, _⟩) <;> simp at hl)]
  rw [if_neg (by simp)]
  try dsimp only
  rw [splitAtFirst_none '#' _ (fun d hd => (hP2 d hd).1)]
  try dsimp only
  rw [splitAtFirst_none '?' _ (fun d hd => (hP2 d hd).2)]
  rw [if_neg hS1]

theorem normalize_fixed_A (S N T : Str)
    (hS1 : S ≠ []) (hS2 : isAsciiAlpha (S.headD ' ') = true)
    (hS3 : ∀ c ∈ S, isSchemeChar c = true) (hS4 : S.map lowerChar = S)
    (hN1 : ∀ c ∈ N, isNetlocDelim c = false)
    (hN2 : ('[' ∈ N) ↔ (']' ∈ N))
    (hN3 : ∀ c ∈ N, c.toNat < 128)
    (hN4 : N.map lowerChar = N)
    (hT : ∀ c ∈ ('/' :: T : Str), c ≠ '#' ∧ c ≠ '?')
    (hT2 : ('/' :: T : Str).getLast? = some '/' → T = [])
    (hclean : ∀ c ∈ S ++ N ++ ('/' :: T), cleanChar c)
    (hcond2 : N ≠ [] ∨ (S ∈ usesNetlocList ∧ ('/' :: T : Str).take 2 ≠ ['/', '/'])) :
    normalize_url (S ++ ':' :: ('/' :: '/' :: (N ++ '/' :: T))) =
      Except.ok (S ++ ':' :: ('/' :: '/' :: (N ++ '/' :: T))) := by
  unfold normalize_url
  rw [urlsplit_outA S N T hS1 hS2 hS3 hS4 hN1 hN2 hN3 hT hclean]
  dsimp only
  rw [if_neg hS1, hN4]
  rw [if_neg (show ¬ (('/' :: T : Str) = []) by simp)]
  have hstrip : ¬ (('/' :: T : Str).length > 1 ∧ ('/' :: T : Str).getLast? = some '/') := by
    rintro ⟨hl, hg⟩
    have hnil := hT2 hg
    subst hnil
    simp at hl
  rw [if_neg hstrip]
  congr 1
  unfold urlunsplit
  dsimp only
  have hfrag : ¬ (([] : Str) ≠ []) := by simp
  rw [if_neg hfrag, if_neg hfrag]
  have hcond : (N ≠ [] ∨ (S ≠ [] ∧ S ∈ usesNetlocList ∧ ('/' :: T : Str).take 2 ≠ ['/', '/'])) := by
    rcases hcond2 with h | ⟨h1, h2⟩
    · left; exact h
    · right; exact ⟨hS1, h1, h2⟩
  rw [if_pos hcond]
  rw [if_neg (show ¬ (('/' :: T : Str) ≠ [] ∧ ('/' :: T : Str).take 1 ≠ ['/']) by
    rintro ⟨h1, h2⟩
    exact h2 rfl)]
  rw [if_pos hS1]
  simp [List.cons_append, List.append_assoc]

theorem normalize_fixed_B (S P : Str)
    (hS1 : S ≠ []) (hS2 : isAsciiAlpha (S.headD ' ') = true)
    (hS3 : ∀ c ∈ S, isSchemeChar c = true) (hS4 : S.map lowerChar = S)
    (hP1 : P ≠ []) (hP2 : ∀ c ∈ P, c ≠ '#' ∧ c ≠ '?')
    (hPlast : P.getLast? = some '/' → P = ['/'])
    (hPtake : P.take 2 ≠ ['/', '/'])
    (hSnot : S ∉ usesNetlocList)
    (hclean : ∀ c ∈ S ++ P, cleanChar c) :
    normalize_url (S ++ ':' :: P) = Except.ok (S ++ ':' :: P) := by
  unfold normalize_url
  rw [urlsplit_outB S P hS1 hS2 hS3 hS4 hP2 hPtake hclean]
  dsimp only
  rw [if_neg hS1]
  rw [if_neg hP1]
  have hstrip : ¬ (P.length > 1 ∧ P.getLast? = some '/') := by
    rintro ⟨hl, hg⟩
    have h1 := hPlast hg
    subst h1
    simp at hl
  rw [if_neg hstrip]
  congr 1
  unfold urlunsplit
  dsimp only
  have hfrag : ¬ (([] : Str) ≠ []) := by simp
  rw [if_neg hfrag, if_neg hfrag]
  rw [if_neg (show ¬ ((List.map lowerChar [] : Str) ≠ [] ∨
      (S ≠ [] ∧ S ∈ usesNetlocList ∧ P.take 2 ≠ ['/', '/'])) by
    rintro (h | ⟨h1, h2, h3⟩)
    · exact h rfl
    · exact hSnot h2)]
  rw [if_pos hS1]

theorem getLast?_concat_form (l : Str) (a : Char) (h : l.getLast? = some a) :
    ∃ l2, l = l2 ++ [a] := by
  induction l with
  | nil => simp at h
  | cons c t ih =>
    cases t with
    | nil =>
      simp only [List.getLast?_singleton, Option.some.injEq] at h
      exact ⟨[], by rw [h]; rfl⟩
    | cons d s =>
      rw [List.getLast?_cons_cons] at h
      obtain ⟨l2, hl2⟩ := ih h
      exact ⟨c :: l2, by rw [List.cons_append, ← hl2]⟩

theorem singleton_of_short (l : Str) (h1 : l ≠ []) (h2 : ¬ l.length > 1) :
    ∃ c, l = [c] := by
  cases l with
  | nil => exact absurd rfl h1
  | cons c t =>
    cases t with
    | nil => exact ⟨c, rfl⟩
    | cons d s => simp at h2

theorem take_two_concat (Q : Str) (a : Char) (h : Q.length ≥ 2) :
    (Q ++ [a]).take 2 = Q.take 2 := by
  rw [List.take_append_of_le_length h]

theorem getLast?_cons_of_ne_nil (a : Char) (l : Str) (h : l ≠ []) :
    (a :: l).getLast? = l.getLast? := by
  cases l with
  | nil => exact absurd rfl h
  | cons b t => rw [List.getLast?_cons_cons]

theorem eq_cons_of_take_one (l : Str) (a : Char) (h : l.take 1 = [a]) :
    ∃ t, l = a :: t := by
  cases l with
  | nil => simp at h
  | cons c t =>
    rw [List.take_succ_cons] at h
    injection h with h1 h2
    exact ⟨t, by rw [h1]⟩

/-- C2 (amended): `normalize_url` is idempotent for every URL except the
pathological parses rule 4 cannot stabilize in one pass: a path ending in
a double slash (rule 4 strips exactly one slash per application — see the
counterexample), or an empty authority with a path starting `//` (which
re-parses as an authority).  For all other inputs, the output of
`normalize_url` is a fixed point. -/
theorem c2_normalize_idempotent_amended (x y : Str) (sp : SplitResult)
    (hsp : urlsplit x [] = Except.ok sp)
    (h1 : ¬ (['/', '/'] <:+ sp.path))
    (h2 : ¬ (sp.netloc = [] ∧ sp.path.take 2 = ['/', '/']))
    (hy : normalize_url x = Except.ok y) :
    normalize_url y = Except.ok y := by
  unfold normalize_url at hy
  rw [hsp] at hy
  dsimp only at hy
  injection hy with hy
  subst hy
  obtain ⟨hsch, hn1, hn2, hn3, hp2, hcn, hcp⟩ := urlsplit_ok_props x sp hsp
  set S := (if sp.scheme = [] then ("https").data else sp.scheme) with hSdef
  set N := sp.netloc.map lowerChar with hNdef
  set P0 := (if sp.path = [] then ['/'] else sp.path) with hP0def
  set P := (if P0.length > 1 ∧ P0.getLast? = some '/' then P0.dropLast else P0) with hPdef
  have hfrag : ¬ (([] : Str) ≠ []) := by simp
  have hS1 : S ≠ [] := by
    rw [hSdef]
    split
    · decide
    · next hne => exact hne
  have hS2 : isAsciiAlpha (S.headD ' ') = true := by
    rw [hSdef]
    split
    · decide
    · next hne =>
      rcases hsch with h0 | h0
      · exact absurd h0 hne
      · exact h0.2.1
  have hS3 : ∀ c ∈ S, isSchemeChar c = true := by
    rw [hSdef]
    split
    · intro c hc
      fin_cases hc <;> decide
    · next hne =>
      rcases hsch with h0 | h0
      · exact absurd h0 hne
      · exact h0.2.2.1
  have hS4 : S.map lowerChar = S := by
    rw [hSdef]
    split
    · decide
    · next hne =>
      rcases hsch with h0 | h0
      · exact absurd h0 hne
      · exact h0.2.2.2
  have hScln : ∀ c ∈ S, cleanChar c := by
    intro c hc
    have hsc := hS3 c hc
    rw [isSchemeChar_iff] at hsc
    rw [cleanChar_iff]
    omega
  have hN1 : ∀ c ∈ N, isNetlocDelim c = false := by
    intro c hc
    rw [hNdef, List.mem_map] at hc
    obtain ⟨c0, hc0, he⟩ := hc
    rw [← he]
    exact lowerChar_isNetlocDelim c0 (hn1 c0 hc0)
  have hN2 : ('[' ∈ N) ↔ (']' ∈ N) := by
    rw [hNdef,
      mem_map_lowerChar_bracket _ '[' (by decide) (by decide),
      mem_map_lowerChar_bracket _ ']' (by decide) (by decide)]
    exact hn2
  have hN3 : ∀ c ∈ N, c.toNat < 128 := by
    intro c hc
    rw [hNdef, List.mem_map] at hc
    obtain ⟨c0, hc0, he⟩ := hc
    rw [← he]
    exact lowerChar_ascii c0 (hn3 c0 hc0)
  have hN4 : N.map lowerChar = N := by
    rw [hNdef]
    exact map_lowerChar_idem _
  have hNcln : ∀ c ∈ N, cleanChar c := by
    intro c hc
    rw [hNdef, List.mem_map] at hc
    obtain ⟨c0, hc0, he⟩ := hc
    rw [← he]
    exact lowerChar_cleanChar c0 (hcn c0 hc0)
  have hNnil : N = [] → sp.netloc = [] := by
    rw [hNdef]
    simp
  have hP0ne : P0 ≠ [] := by
    rw [hP0def]
    split
    · decide
    · next hne => exact hne
  have hP0mem : ∀ c ∈ P0, c ≠ '#' ∧ c ≠ '?' := by
    rw [hP0def]
    split
    · intro c hc
      fin_cases hc
      exact ⟨by decide, by decide⟩
    · exact hp2
  have hP0cln : ∀ c ∈ P0, cleanChar c := by
    rw [hP0def]
    split
    · intro c hc
      fin_cases hc
      decide
    · exact hcp
  have hPsub : ∀ c ∈ P, c ∈ P0 := by
    rw [hPdef]
    split
    · intro c hc
      exact (List.dropLast_sublist _).subset hc
    · intro c hc
      exact hc
  have hP1 : P ≠ [] := by
    rw [hPdef]
    split
    · next hcnd =>
      intro he
      have hle := congrArg List.length he
      rw [List.length_dropLast] at hle
      simp at hle
      omega
    · exact hP0ne
  have hP2' : ∀ c ∈ P, c ≠ '#' ∧ c ≠ '?' := fun c hc => hP0mem c (hPsub c hc)
  have hPcln : ∀ c ∈ P, cleanChar c := fun c hc => hP0cln c (hPsub c hc)
  have hP0nosl : ¬ (['/', '/'] <:+ P0) := by
    rw [hP0def]
    split
    · intro hcon
      have := hcon.length_le
      simp at this
    · exact h1
  have hPlast : P.getLast? = some '/' → P = ['/'] := by
    rw [hPdef]
    split
    · next hcnd =>
      intro hg
      exfalso
      obtain ⟨Q, hQ⟩ := getLast?_concat_form _ _ hcnd.2
      obtain ⟨Q2, hQ2⟩ := getLast?_concat_form _ _ (by rwa [hQ, List.dropLast_concat] at hg)
      apply hP0nosl
      refine ⟨Q2, ?_⟩
      rw [hQ, hQ2]
      simp
    · next hcnd =>
      intro hg
      rw [not_and_or] at hcnd
      rcases hcnd with hcnd | hcnd
      · obtain ⟨c, hc⟩ := singleton_of_short P0 hP0ne hcnd
        rw [hc] at hg ⊢
        simp only [List.getLast?_singleton, Option.some.injEq] at hg
        rw [hg]
      · exact absurd hg hcnd
  have hPtake2 : P.take 2 = ['/', '/'] → sp.path.take 2 = ['/', '/'] := by
    rw [hPdef]
    split
    · next hcnd =>
      intro ht
      obtain ⟨Q, hQ⟩ := getLast?_concat_form _ _ hcnd.2
      rw [hQ, List.dropLast_concat] at ht
      have hlen : Q.length ≥ 2 := by
        have hl2 := congrArg List.length ht
        simp only [List.length_take] at hl2
        simp at hl2
        omega
      have hp0t : P0.take 2 = ['/', '/'] := by
        rw [hQ, take_two_concat Q _ hlen, ht]
      rw [hP0def] at hp0t
      split at hp0t
      · exact absurd hp0t (by decide)
      · exact hp0t
    · intro ht
      rw [hP0def] at ht
      split at ht
      · exact absurd ht (by decide)
      · exact ht
  by_cases hcond : N ≠ [] ∨ (S ≠ [] ∧ S ∈ usesNetlocList ∧ P.take 2 ≠ ['/', '/'])
  · by_cases hPfix : P ≠ [] ∧ P.take 1 ≠ ['/']
    · have hshape : urlunsplit ⟨S, N, P, [], []⟩ =
          S ++ ':' :: ('/' :: '/' :: (N ++ '/' :: P)) := by
        unfold urlunsplit
        dsimp only
        rw [if_neg hfrag, if_neg hfrag, if_pos hcond, if_pos hPfix, if_pos hS1]
        simp
      rw [hshape]
      apply normalize_fixed_A S N P hS1 hS2 hS3 hS4 hN1 hN2 hN3 hN4
      · intro c hc
        rcases List.mem_cons.1 hc with hc | hc
        · subst hc
          exact ⟨by decide, by decide⟩
        · exact hP2' c hc
      · intro hg
        exfalso
        rw [getLast?_cons_of_ne_nil '/' P hPfix.1] at hg
        have hps := hPlast hg
        rw [hps] at hPfix
        exact hPfix.2 rfl
      · intro c hc
        simp only [List.mem_append, List.mem_cons] at hc
        rcases hc with (hc | hc) | hc | hc
        · exact hScln c hc
        · exact hNcln c hc
        · subst hc; decide
        · exact hPcln c hc
      · rcases hcond with h0 | ⟨h0, h3, h4⟩
        · left; exact h0
        · right
          refine ⟨h3, ?_⟩
          rw [List.take_succ_cons]
          intro he
          injection he with he1 he2
          exact hPfix.2 he2
    · have hPt1 : P.take 1 = ['/'] := by
        push_neg at hPfix
        exact hPfix hP1
      obtain ⟨T, hPT⟩ := eq_cons_of_take_one P '/' hPt1
      have hshape : urlunsplit ⟨S, N, P, [], []⟩ =
          S ++ ':' :: ('/' :: '/' :: (N ++ '/' :: T)) := by
        unfold urlunsplit
        dsimp only
        rw [if_neg hfrag, if_neg hfrag, if_pos hcond, if_neg hPfix, if_pos hS1, hPT]
        simp
      rw [hshape]
      apply normalize_fixed_A S N T hS1 hS2 hS3 hS4 hN1 hN2 hN3 hN4
      · rw [← hPT]
        exact hP2'
      · intro hg
        rw [← hPT] at hg
        have hps := hPlast hg
        rw [hPT] at hps
        simpa using hps
      · intro c hc
        simp only [List.mem_append, List.mem_cons] at hc
        rcases hc with (hc | hc) | hc | hc
        · exact hScln c hc
        · exact hNcln c hc
        · subst hc; decide
        · exact hPcln c (by rw [hPT]; exact List.mem_cons_of_mem _ hc)
      · rcases hcond with h0 | ⟨h0, h3, h4⟩
        · left; exact h0
        · right
          refine ⟨h3, ?_⟩
          rw [← hPT]
          exact h4
  · have hcond0 := hcond
    push_neg at hcond0
    obtain ⟨hNe, hrest⟩ := hcond0
    have hSnot : S ∉ usesNetlocList := by
      intro hin
      exact h2 ⟨hNnil hNe, hPtake2 (hrest hS1 hin)⟩
    have hPt2 : P.take 2 ≠ ['/', '/'] := by
      intro ht
      exact h2 ⟨hNnil hNe, hPtake2 ht⟩
    have hshape : urlunsplit ⟨S, N, P, [], []⟩ = S ++ ':' :: P := by
      unfold urlunsplit
      dsimp only
      rw [if_neg hfrag, if_neg hfrag, if_neg hcond, if_pos hS1]
    rw [hshape]
    apply normalize_fixed_B S P hS1 hS2 hS3 hS4 hP1 hP2' hPlast hPt2 hSnot
    intro c hc
    rcases List.mem_append.1 hc with hc | hc
    · exact hScln c hc
    · exact hPcln c hc

/-- Witness for the amended C2 theorem on a concrete URL with mixed-case
host and a single trailing slash. -/
theorem c2_normalize_idempotent_amended_witness :
    normalize_url (("http://example.com/a").data) =
      Except.ok (("http://example.com/a").data) :=
  c2_normalize_idempotent_amended (("http://Example.com/a/").data)
    (("http://example.com/a").data)
    ⟨("http").data, ("Example.com").data, ("/a/").data, [], []⟩
    (by decide) (by decide) (by decide) (by decide)
